import Mathlib

/-!
Verification of the `m3gnet` command-line front-end (`m3gnet/cli.py`).

The file shallowly embeds the CLI module:

* the external collaborators (`pymatgen.core.structure.Structure.from_file`,
  `Relaxer`, `MolecularDynamics`, file writing) are opaque fallible functions,
  passed as parameters of type `String → Except ε S` and friends;
* the two handlers `relax_structure` and `run_md` are translated as functions
  producing the list of observable effects (console prints, file writes, MD
  driver construction and runs) together with either a normal return value or
  the error raised by the first failing external call;
* the `argparse` configuration built in `main` is embedded as a token-list
  parser implementing the documented argparse behaviour for exactly this
  configuration (exact option-string matching; `nargs=+` greedily consumes the
  following non-option tokens; a mutually-exclusive group rejects an option
  when one from the other group was already seen; required options missing at
  the end of the scan are an error; optional options keep their defaults);
* `os.path.splitext` is translated faithfully (POSIX separators), including
  the rule that leading dots of a basename never start an extension.
-/

namespace M3g

/-- One MD driver construction call: the keyword arguments passed to
`MolecularDynamics(atoms=…, temperature=…, ensemble=…, timestep=…,
trajectory=…, logfile=…, loginterval=…)`.  Python floats are represented as
rationals (the CLI only passes them through; no float arithmetic occurs). -/
structure MDParams (S : Type) where
  atoms : S
  temperature : Rat
  ensemble : String
  timestep : Rat
  trajectory : String
  logfile : String
  loginterval : Int
deriving DecidableEq

/-- Observable effects of the CLI, in program order.  `info` is a `print` of
status text, `showStruct` the verbose `print(s)` of the starting structure,
`printFinal` the `print(final_structure)` of the else-branch, `writeFile` a
`final_structure.to(filename=…)` call, `mdConstruct`/`mdRun` the MD driver
construction and its `run(steps=…)` call, `printHelp` `parser.print_help()`. -/
inductive CliEvent (S : Type) where
  | info (msg : String)
  | showStruct (s : S)
  | printFinal (s : S)
  | writeFile (path : String) (s : S)
  | mdConstruct (p : MDParams S)
  | mdRun (steps : Int)
  | printHelp
deriving DecidableEq

/-! ## `os.path.splitext` (POSIX) -/

/-- Split a character list at its last `/`: the first component keeps the
trailing `/`, the second is the basename. -/
def splitAtLastSep (p : List Char) : List Char × List Char :=
  ((p.reverse.dropWhile (fun c => c != '/')).reverse,
   (p.reverse.takeWhile (fun c => c != '/')).reverse)

/-- `os.path.splitext` on a basename: split at the last dot, except that a
basename whose characters before that dot are all dots (e.g. `.bashrc`,
`..`) has no extension. -/
def splitextBase (base : List Char) : List Char × List Char :=
  match base.reverse.dropWhile (fun c => c != '.') with
  | [] => (base, [])
  | _ :: preRev =>
    if preRev.reverse.any (fun c => c != '.') then
      (preRev.reverse, '.' :: (base.reverse.takeWhile (fun c => c != '.')).reverse)
    else (base, [])

/-- `os.path.splitext`: split a path into `(root, ext)` with `root ++ ext`
equal to the path. -/
def splitext (p : String) : String × String :=
  let db := splitAtLastSep p.data
  let se := splitextBase db.2
  (String.mk (db.1 ++ se.1), String.mk se.2)

/-! ## The two handlers

The externals are parameters: `load` is `Structure.from_file`, `relaxE` is
`Relaxer().relax(s)["final_structure"]` (constructing the relaxer and reading
the result dictionary are folded into the one call, as the CLI observes
nothing else of them), `write` is `final_structure.to(filename=…)`, `mdNew`
is the `MolecularDynamics(…)` constructor and `mdGo` its `run` method.  Any
of them may raise, which `Except.error` models. -/

variable {S D ε : Type}

/-- Parsed namespace of the `relax` subcommand. -/
structure RelaxArgs where
  infile : List String
  verbose : Bool
  suffix : Option String
  outfile : Option String
deriving DecidableEq

/-- Python truthiness of `args.suffix` (`None` and `""` are falsy). -/
def pyTruthy : Option String → Bool
  | none => false
  | some s => !s.data.isEmpty

/-- The body of the `for fn in args.infile` loop of `relax_structure`:
events emitted for one input file, and the error of the first failing
external call, if any. -/
def relaxFile (load : String → Except ε S) (relaxE : S → Except ε S)
    (write : String → S → Except ε Unit) (a : RelaxArgs) (fn : String) :
    List (CliEvent S) × Option ε :=
  match load fn with
  | .error e => ([], some e)
  | .ok s =>
    let pre : List (CliEvent S) :=
      if a.verbose then
        [.info "Starting structure", .showStruct s, .info "Relaxing..."]
      else []
    match relaxE s with
    | .error e => (pre, some e)
    | .ok final =>
      if pyTruthy a.suffix then
        let be := splitext fn
        let outfn := be.1 ++ a.suffix.getD "" ++ be.2
        match write outfn final with
        | .error e => (pre, some e)
        | .ok _ =>
          (pre ++ [.writeFile outfn final,
                   .info ("Structure written to " ++ outfn ++ "!")], none)
      else
        match a.outfile with
        | some o =>
          match write o final with
          | .error e => (pre, some e)
          | .ok _ =>
            (pre ++ [.writeFile o final,
                     .info ("Structure written to " ++ o ++ "!")], none)
        | none => (pre ++ [.info "Final structure", .printFinal final], none)

/-- The `for` loop of `relax_structure`: files are processed in order; an
error stops the loop and propagates. -/
def relaxLoop (load : String → Except ε S) (relaxE : S → Except ε S)
    (write : String → S → Except ε Unit) (a : RelaxArgs) :
    List String → List (CliEvent S) × Option ε
  | [] => ([], none)
  | fn :: rest =>
    match relaxFile load relaxE write a fn with
    | (t, some e) => (t, some e)
    | (t, none) =>
      let r := relaxLoop load relaxE write a rest
      (t ++ r.1, r.2)

/-- `relax_structure(args)`: loops over `args.infile` and returns `0`;
an exception from an external call propagates out as `Except.error`. -/
def relax_structure (load : String → Except ε S) (relaxE : S → Except ε S)
    (write : String → S → Except ε Unit) (a : RelaxArgs) :
    List (CliEvent S) × Except ε Int :=
  match relaxLoop load relaxE write a a.infile with
  | (t, some e) => (t, .error e)
  | (t, none) => (t, .ok 0)

/-- Parsed namespace of the `md` subcommand. -/
structure MdArgs where
  infile : List String
  verbose : Bool
  temp : Rat
  ensemble : String
  timestep : Rat
  trajectory : String
  logfile : String
  loginterval : Int
  nsteps : Int
deriving DecidableEq

/-- The keyword arguments of the `MolecularDynamics(…)` call in `run_md`. -/
def mkParams (b : MdArgs) (s : S) : MDParams S :=
  ⟨s, b.temp, b.ensemble, b.timestep, b.trajectory, b.logfile, b.loginterval⟩

/-- The body of the `for fn in args.infile` loop of `run_md`. -/
def mdFile (load : String → Except ε S) (mdNew : MDParams S → Except ε D)
    (mdGo : D → Int → Except ε Unit) (b : MdArgs) (fn : String) :
    List (CliEvent S) × Option ε :=
  match load fn with
  | .error e => ([], some e)
  | .ok s =>
    let pre : List (CliEvent S) :=
      if b.verbose then
        [.info "Starting structure", .showStruct s, .info "Running MD..."]
      else []
    match mdNew (mkParams b s) with
    | .error e => (pre, some e)
    | .ok d =>
      match mdGo d b.nsteps with
      | .error e => (pre ++ [.mdConstruct (mkParams b s)], some e)
      | .ok _ => (pre ++ [.mdConstruct (mkParams b s), .mdRun b.nsteps], none)

/-- The `for` loop of `run_md`. -/
def mdLoop (load : String → Except ε S) (mdNew : MDParams S → Except ε D)
    (mdGo : D → Int → Except ε Unit) (b : MdArgs) :
    List String → List (CliEvent S) × Option ε
  | [] => ([], none)
  | fn :: rest =>
    match mdFile load mdNew mdGo b fn with
    | (t, some e) => (t, some e)
    | (t, none) =>
      let r := mdLoop load mdNew mdGo b rest
      (t ++ r.1, r.2)

/-- `run_md(args)`: loops over `args.infile` and returns `0`. -/
def run_md (load : String → Except ε S) (mdNew : MDParams S → Except ε D)
    (mdGo : D → Int → Except ε Unit) (b : MdArgs) :
    List (CliEvent S) × Except ε Int :=
  match mdLoop load mdNew mdGo b b.infile with
  | (t, some e) => (t, .error e)
  | (t, none) => (t, .ok 0)

/-! ## Event classifiers -/

/-- The per-file output action of `relax_structure`: the final-structure
console print or one of the two file writes. -/
def isOutputAction : CliEvent S → Bool
  | .writeFile _ _ => true
  | .printFinal _ => true
  | _ => false

/-- Structure file writes (`final_structure.to(filename=…)`). -/
def isWriteEvent : CliEvent S → Bool
  | .writeFile _ _ => true
  | _ => false

/-- File writes and MD driver effects: everything except console output. -/
def isExtEffect : CliEvent S → Bool
  | .writeFile _ _ => true
  | .mdConstruct _ => true
  | .mdRun _ => true
  | _ => false

/-- MD driver effects. -/
def isMdEvent : CliEvent S → Bool
  | .mdConstruct _ => true
  | .mdRun _ => true
  | _ => false

/-! ## Derived per-file descriptions (used to state the loop theorems) -/

/-- The events of the verbose block of `relax_structure`. -/
def vPreRelax (a : RelaxArgs) (s : S) : List (CliEvent S) :=
  if a.verbose then
    [.info "Starting structure", .showStruct s, .info "Relaxing..."]
  else []

/-- The suffixed output filename `f"{basename}{args.suffix}{ext}"`. -/
def suffixedName (a : RelaxArgs) (fn : String) : String :=
  (splitext fn).1 ++ a.suffix.getD "" ++ (splitext fn).2

/-- The events of the output branch of `relax_structure` for one file. -/
def outputTail (a : RelaxArgs) (final : S) (fn : String) : List (CliEvent S) :=
  if pyTruthy a.suffix then
    [.writeFile (suffixedName a fn) final,
     .info ("Structure written to " ++ suffixedName a fn ++ "!")]
  else
    match a.outfile with
    | some o => [.writeFile o final, .info ("Structure written to " ++ o ++ "!")]
    | none => [.info "Final structure", .printFinal final]

/-- The one output action `relax_structure` performs for one input file. -/
def outputActionOf (a : RelaxArgs) (final : S) (fn : String) : CliEvent S :=
  if pyTruthy a.suffix then .writeFile (suffixedName a fn) final
  else
    match a.outfile with
    | some o => .writeFile o final
    | none => .printFinal final

/-- The events of the verbose block of `run_md`. -/
def vPreMd (b : MdArgs) (s : S) : List (CliEvent S) :=
  if b.verbose then
    [.info "Starting structure", .showStruct s, .info "Running MD..."]
  else []

/-- Concatenation of a per-file event list over a file list, in order. -/
def traceOf (f : String → List (CliEvent S)) : List String → List (CliEvent S)
  | [] => []
  | fn :: rest => f fn ++ traceOf f rest

/-- The part of the relax loop body after the verbose block, as a function of
the suffix and outfile options only (used to factor `relaxFile`). -/
def relaxTail (relaxE : S → Except ε S) (write : String → S → Except ε Unit)
    (suf out : Option String) (fn : String) (s : S) : List (CliEvent S) × Option ε :=
  match relaxE s with
  | .error e => ([], some e)
  | .ok final =>
    if pyTruthy suf then
      let be := splitext fn
      let outfn := be.1 ++ suf.getD "" ++ be.2
      match write outfn final with
      | .error e => ([], some e)
      | .ok _ =>
        ([.writeFile outfn final, .info ("Structure written to " ++ outfn ++ "!")], none)
    else
      match out with
      | some o =>
        match write o final with
        | .error e => ([], some e)
        | .ok _ => ([.writeFile o final, .info ("Structure written to " ++ o ++ "!")], none)
      | none => ([.info "Final structure", .printFinal final], none)

/-- The part of the md loop body after the verbose block. -/
def mdTail (mdNew : MDParams S → Except ε D) (mdGo : D → Int → Except ε Unit)
    (b : MdArgs) (s : S) : List (CliEvent S) × Option ε :=
  match mdNew (mkParams b s) with
  | .error e => ([], some e)
  | .ok d =>
    match mdGo d b.nsteps with
    | .error e => ([.mdConstruct (mkParams b s)], some e)
    | .ok _ => ([.mdConstruct (mkParams b s), .mdRun b.nsteps], none)

/-- How a handler's loop outcome leaves the handler: `return 0` or the
propagated exception. -/
def wrapExit : Option ε → Except ε Int
  | some e => .error e
  | none => .ok 0

/-! ## Concrete external collaborators for evaluation -/

/-- A total structure loader (structures are represented by `Nat`). -/
def loadT : String → Except String Nat := fun _ => .ok 0

/-- A total relaxation routine. -/
def relaxT : Nat → Except String Nat := fun s => .ok (s + 1)

/-- A total file writer. -/
def writeT : String → Nat → Except String Unit := fun _ _ => .ok ()

/-- Underlying pure loader of `loadT`. -/
def loadFT : String → Nat := fun _ => 0

/-- Underlying pure relaxation of `relaxT`. -/
def relaxFT : Nat → Nat := fun s => s + 1

/-- A loader that raises on the file `bad.cif`. -/
def loadB : String → Except String Nat := fun fn =>
  if fn = "bad.cif" then .error "OSError" else .ok 7

/-- A total MD driver constructor (drivers are represented by their params). -/
def mdNewT : MDParams Nat → Except String (MDParams Nat) := fun p => .ok p

/-- A total MD run routine. -/
def mdGoT : MDParams Nat → Int → Except String Unit := fun _ _ => .ok ()

/-- Underlying pure constructor of `mdNewT`. -/
def mdNewFT : MDParams Nat → MDParams Nat := fun p => p

/-! ## The argparse configuration of `main`

The `argparse` library is external (Python stdlib); what the CLI defines is a
configuration: two subcommands with their option tables.  The model below
implements argparse's documented behaviour for exactly this configuration:
exact option-string matching (no abbreviations, no `=` syntax), `store_true`
flags, single-value options whose value must not itself look like an option,
`nargs=+` greedily consuming the following non-option tokens, type
conversion through the supplied converters, immediate rejection of an option
whose mutually-exclusive partner was already seen, required options checked
at the end of the scan, and defaults for options never seen.  `parser.error`
(usage message to stderr, exit status 2) is modelled by `PError`. -/

/-- Errors argparse reports via `parser.error(...)`. -/
inductive PError where
  | unrecognized (tok : String)
  | expectedOneArg (opt : String)
  | expectedAtLeastOne (opt : String)
  | invalidValue (opt : String) (val : String)
  | notAllowedWith (opt other : String)
  | missingRequired (opts : List String)
  | invalidChoice (tok : String)
deriving DecidableEq

/-- A token is treated as an option string: it starts with the prefix
character `-` and is not `-` alone.  (Model restriction: tokens looking like
negative numbers are also treated as options, which is safe for this parser —
it defines no negative-number-like option strings and no claim involves
negative option values.) -/
def optionLike (t : String) : Bool :=
  match t.data with
  | '-' :: _ :: _ => true
  | _ => false

/-- What one configured option does to the namespace when matched:
a `store_true` flag, a single-value option (whose update may reject the
invocation: conversion failure or mutually-exclusive conflict), or a
`nargs=+` option taking one or more values. -/
inductive OptKind (sig : Type) where
  | flag (upd : sig → sig)
  | one (upd : sig → String → Except PError sig)
  | plus (upd : sig → List String → sig)

/-- One `add_argument` call: the option strings and the behaviour. -/
structure OptSpec (sig : Type) where
  names : List String
  kind : OptKind sig

/-- The argparse scan loop over one subparser's option table: each token must
match a configured option string; a matched option consumes its values (which
must not look like options) and updates the namespace.  The `Nat` argument is
fuel making the recursion structural; every step consumes at least one token,
so with `tokens.length` as initial fuel the fuel-exhaustion branch is
unreachable. -/
def scanArgsGo (table : List (OptSpec sig)) : Nat → List String → sig → Except PError sig
  | _, [], st => .ok st
  | 0, t :: _, _ => .error (.unrecognized t)
  | fuel + 1, t :: rest, st =>
    match table.find? (fun o => o.names.contains t) with
    | none => .error (.unrecognized t)
    | some o =>
      match o.kind with
      | .flag upd => scanArgsGo table fuel rest (upd st)
      | .one upd =>
        match rest with
        | [] => .error (.expectedOneArg t)
        | v :: rest1 =>
          if optionLike v then .error (.expectedOneArg t)
          else
            match upd st v with
            | .error e => .error e
            | .ok st1 => scanArgsGo table fuel rest1 st1
      | .plus upd =>
        if (rest.takeWhile fun s => !optionLike s).isEmpty then
          .error (.expectedAtLeastOne t)
        else
          scanArgsGo table fuel (rest.dropWhile fun s => !optionLike s)
            (upd st (rest.takeWhile fun s => !optionLike s))

/-- The argparse scan of one subparser. -/
def scanArgs (table : List (OptSpec sig)) (tokens : List String) (st : sig) :
    Except PError sig :=
  scanArgsGo table tokens.length tokens st

/-- Scanner state of the `relax` subparser: the namespace under construction
plus the seen-flags of the mutually exclusive group. -/
structure RelaxAcc where
  infile : Option (List String)
  verbose : Bool
  suffix : Option String
  outfile : Option String
  seenS : Bool
  seenO : Bool
deriving DecidableEq

/-- Initial `relax` namespace: `argparse` defaults (`verbose=False`, the
rest `None`), nothing seen yet. -/
def relaxInit : RelaxAcc := ⟨none, false, none, none, false, false⟩

/-- The option table of the `relax` subparser: `-i` `--infile` (required,
`nargs=+`), `-v` `--verbose` (`store_true`), and the mutually exclusive pair
`-s` `--suffix` versus `-o` `--outfile`. -/
def relaxTable : List (OptSpec RelaxAcc) :=
  [⟨["-i", "--infile"], .plus fun st vs => { st with infile := some vs }⟩,
   ⟨["-v", "--verbose"], .flag fun st => { st with verbose := true }⟩,
   ⟨["-s", "--suffix"], .one fun st v =>
      if st.seenO then .error (.notAllowedWith "-s/--suffix" "-o/--outfile")
      else .ok { st with suffix := some v, seenS := true }⟩,
   ⟨["-o", "--outfile"], .one fun st v =>
      if st.seenS then .error (.notAllowedWith "-o/--outfile" "-s/--suffix")
      else .ok { st with outfile := some v, seenO := true }⟩]

/-- Required check and namespace construction of the `relax` subparser. -/
def relaxFinalize (acc : RelaxAcc) : Except PError RelaxArgs :=
  match acc.infile with
  | none => .error (.missingRequired ["-i/--infile"])
  | some fs => .ok ⟨fs, acc.verbose, acc.suffix, acc.outfile⟩

/-- `relax` subparser: scan, then required check. -/
def relaxParse (tokens : List String) : Except PError RelaxArgs :=
  match scanArgs relaxTable tokens relaxInit with
  | .error e => .error e
  | .ok acc => relaxFinalize acc

/-- Scanner state of the `md` subparser.  Required options are tracked as
`Option` (their configured defaults are unobservable: `argparse` rejects the
invocation when a required option was never seen); optional options start at
their defaults. -/
structure MdAcc where
  infile : Option (List String)
  verbose : Bool
  temp : Option Rat
  ensemble : Option String
  timestep : Option Rat
  trajectory : String
  logfile : String
  loginterval : Int
  nsteps : Option Int
deriving DecidableEq

/-- Initial `md` namespace: `verbose=False`, `trajectory="md.traj"`,
`logfile="md.log"`, `loginterval=100`. -/
def mdInit : MdAcc := ⟨none, false, none, none, none, "md.traj", "md.log", 100, none⟩

/-- The option table of the `md` subparser; `pf` and `pm` model Python's
`float` and `int` conversions (`type=float`, `type=int`). -/
def mdTable (pf : String → Option Rat) (pm : String → Option Int) :
    List (OptSpec MdAcc) :=
  [⟨["-i", "--infile"], .plus fun st vs => { st with infile := some vs }⟩,
   ⟨["-v", "--verbose"], .flag fun st => { st with verbose := true }⟩,
   ⟨["-t", "--temp"], .one fun st v =>
      match pf v with
      | none => .error (.invalidValue "-t/--temp" v)
      | some x => .ok { st with temp := some x }⟩,
   ⟨["-e", "--ensemble"], .one fun st v => .ok { st with ensemble := some v }⟩,
   ⟨["-dt", "--timestep"], .one fun st v =>
      match pf v with
      | none => .error (.invalidValue "-dt/--timestep" v)
      | some x => .ok { st with timestep := some x }⟩,
   ⟨["--traj"], .one fun st v => .ok { st with trajectory := v }⟩,
   ⟨["--log"], .one fun st v => .ok { st with logfile := v }⟩,
   ⟨["--loginterval"], .one fun st v =>
      match pm v with
      | none => .error (.invalidValue "--loginterval" v)
      | some x => .ok { st with loginterval := x }⟩,
   ⟨["-n", "--nsteps"], .one fun st v =>
      match pm v with
      | none => .error (.invalidValue "-n/--nsteps" v)
      | some x => .ok { st with nsteps := some x }⟩]

/-- The required `md` options never seen during the scan. -/
def mdMissing (acc : MdAcc) : List String :=
  (if acc.infile.isNone then ["-i/--infile"] else [])
    ++ (if acc.temp.isNone then ["-t/--temp"] else [])
    ++ (if acc.ensemble.isNone then ["-e/--ensemble"] else [])
    ++ (if acc.timestep.isNone then ["-dt/--timestep"] else [])
    ++ (if acc.nsteps.isNone then ["-n/--nsteps"] else [])

/-- Required check and namespace construction of the `md` subparser. -/
def mdFinalize (acc : MdAcc) : Except PError MdArgs :=
  match acc.infile, acc.temp, acc.ensemble, acc.timestep, acc.nsteps with
  | some fs, some x, some en, some dt, some n =>
    .ok ⟨fs, acc.verbose, x, en, dt, acc.trajectory, acc.logfile, acc.loginterval, n⟩
  | _, _, _, _, _ => .error (.missingRequired (mdMissing acc))

/-- `md` subparser: scan, then required check. -/
def mdParse (pf : String → Option Rat) (pm : String → Option Int)
    (tokens : List String) : Except PError MdArgs :=
  match scanArgs (mdTable pf pm) tokens mdInit with
  | .error e => .error e
  | .ok acc => mdFinalize acc

/-- Result of `parser.parse_args()`: a namespace with a handler, a namespace
without one (no subcommand given), or an argparse error. -/
inductive Parsed where
  | relaxCmd (a : RelaxArgs)
  | mdCmd (b : MdArgs)
  | noCommand
  | parseErr (e : PError)
deriving DecidableEq

/-- The top-level parser: the first token selects the subcommand and the
rest go to its subparser; no token at all leaves the namespace without a
`func` attribute. -/
def topParse (pf : String → Option Rat) (pm : String → Option Int) :
    List String → Parsed
  | [] => .noCommand
  | t :: rest =>
    if t = "relax" then
      match relaxParse rest with
      | .ok a => .relaxCmd a
      | .error e => .parseErr e
    else if t = "md" then
      match mdParse pf pm rest with
      | .ok b => .mdCmd b
      | .error e => .parseErr e
    else .parseErr (.invalidChoice t)

/-- How the process leaves `main`: a handler's return value, the
`print_help(); sys.exit(-1)` path, an argparse usage error (which exits with
status 2), or an exception propagating out of a handler. -/
inductive MainResult (ε : Type) where
  | returned (code : Int)
  | helpExit (code : Int)
  | usageError (code : Int) (e : PError)
  | raised (err : ε)
deriving DecidableEq

/-- `main()`: parse, dispatch to the selected handler, return its value;
with no subcommand print help and `sys.exit(-1)`. -/
def main (load : String → Except ε S) (relaxE : S → Except ε S)
    (write : String → S → Except ε Unit) (mdNew : MDParams S → Except ε D)
    (mdGo : D → Int → Except ε Unit) (pf : String → Option Rat)
    (pm : String → Option Int) (argv : List String) :
    List (CliEvent S) × MainResult ε :=
  match topParse pf pm argv with
  | .noCommand => ([.printHelp], .helpExit (-1))
  | .parseErr e => ([], .usageError 2 e)
  | .relaxCmd a =>
    match relax_structure load relaxE write a with
    | (t, .ok c) => (t, .returned c)
    | (t, .error e) => (t, .raised e)
  | .mdCmd b =>
    match run_md load mdNew mdGo b with
    | (t, .ok c) => (t, .returned c)
    | (t, .error e) => (t, .raised e)

/-- Concrete float conversion for witnesses (only the tokens they use). -/
def pfT : String → Option Rat := fun s =>
  if s = "300" then some 300 else if s = "2" then some 2 else none

/-- Concrete int conversion for witnesses (only the tokens they use). -/
def pmT : String → Option Int := fun s =>
  if s = "100" then some 100 else if s = "10" then some 10 else none

/-- The update of an option leaves the observation `f` unchanged. -/
def preservesF {sig bT : Type} (f : sig → bT) (o : OptSpec sig) : Prop :=
  match o.kind with
  | .flag upd => ∀ st, f (upd st) = f st
  | .one upd => ∀ st v st1, upd st v = .ok st1 → f st1 = f st
  | .plus upd => ∀ st vs, f (upd st vs) = f st

/-- The update of an option preserves the invariant `P`. -/
def keepsInv {sig : Type} (P : sig → Prop) (o : OptSpec sig) : Prop :=
  match o.kind with
  | .flag upd => ∀ st, P st → P (upd st)
  | .one upd => ∀ st v st1, upd st v = .ok st1 → P st → P st1
  | .plus upd => ∀ st vs, P st → P (upd st vs)

/-- The update of an option always establishes `g`. -/
def setsTrue {sig : Type} (g : sig → Bool) (o : OptSpec sig) : Prop :=
  match o.kind with
  | .flag upd => ∀ st, g (upd st) = true
  | .one upd => ∀ st v st1, upd st v = .ok st1 → g st1 = true
  | .plus upd => ∀ st vs, g (upd st vs) = true

/-! # Theorems -/

theorem splitAtLastSep_append (p : List Char) :
    (splitAtLastSep p).1 ++ (splitAtLastSep p).2 = p := by
  show (p.reverse.dropWhile _).reverse ++ (p.reverse.takeWhile _).reverse = p
  rw [← List.reverse_append, List.takeWhile_append_dropWhile, List.reverse_reverse]

theorem dropWhile_cons_head (p : α → Bool) :
    ∀ (l : List α) (x : α) (xs : List α), l.dropWhile p = x :: xs → p x = false := by
  intro l
  induction l with
  | nil => intro x xs h; simp [List.dropWhile] at h
  | cons c cs ih =>
    intro x xs h
    by_cases hc : p c
    · rw [List.dropWhile_cons_of_pos hc] at h
      exact ih x xs h
    · rw [List.dropWhile_cons_of_neg hc] at h
      cases h
      exact Bool.of_not_eq_true hc

theorem splitextBase_append (base : List Char) :
    (splitextBase base).1 ++ (splitextBase base).2 = base := by
  unfold splitextBase
  cases hdrop : base.reverse.dropWhile (fun c => c != '.') with
  | nil => simp
  | cons h preRev =>
    have hdot : h = '.' := by
      have := dropWhile_cons_head (fun c => c != '.') base.reverse h preRev hdrop
      simpa using this
    have h1 : base.reverse.takeWhile (fun c => c != '.') ++ base.reverse.dropWhile (fun c => c != '.')
        = base.reverse := List.takeWhile_append_dropWhile _ _
    rw [hdrop, hdot] at h1
    have hsplit : base = preRev.reverse ++ '.' :: (base.reverse.takeWhile (fun c => c != '.')).reverse :=
      calc base = base.reverse.reverse := (List.reverse_reverse base).symm
        _ = (base.reverse.takeWhile (fun c => c != '.') ++ '.' :: preRev).reverse := by rw [h1]
        _ = preRev.reverse ++ '.' :: (base.reverse.takeWhile (fun c => c != '.')).reverse := by simp
    by_cases hany : (preRev.reverse.any fun c => c != '.') = true
    · simpa [hany] using hsplit.symm
    · simp [hany]

theorem splitext_append (p : String) : (splitext p).1 ++ (splitext p).2 = p := by
  show String.mk (((splitAtLastSep p.data).1 ++ (splitextBase (splitAtLastSep p.data).2).1)
      ++ (splitextBase (splitAtLastSep p.data).2).2) = p
  rw [List.append_assoc, splitextBase_append, splitAtLastSep_append]

/-! ## Success-path shape of the relax handler -/

theorem relaxFile_success (load : String → Except ε S) (relaxE : S → Except ε S)
    (write : String → S → Except ε Unit) (a : RelaxArgs) (fn : String) (s0 f0 : S)
    (hl : load fn = .ok s0) (hr : relaxE s0 = .ok f0)
    (hw : ∀ p x, write p x = Except.ok ()) :
    relaxFile load relaxE write a fn = (vPreRelax a s0 ++ outputTail a f0 fn, none) := by
  simp only [relaxFile, hl, hr, hw, vPreRelax, outputTail, suffixedName]
  by_cases hs : pyTruthy a.suffix = true
  · simp [hs]
  · cases ho : a.outfile <;> simp [hs, ho]

theorem relaxLoop_success (load : String → Except ε S) (relaxE : S → Except ε S)
    (write : String → S → Except ε Unit) (a : RelaxArgs)
    (loadF : String → S) (relaxF : S → S)
    (hl : ∀ fn, load fn = .ok (loadF fn)) (hr : ∀ s, relaxE s = .ok (relaxF s))
    (hw : ∀ p x, write p x = Except.ok ()) :
    ∀ l, relaxLoop load relaxE write a l
      = (traceOf (fun fn => vPreRelax a (loadF fn) ++ outputTail a (relaxF (loadF fn)) fn) l,
         none) := by
  intro l
  induction l with
  | nil => rfl
  | cons fn rest ih =>
    rw [relaxLoop, relaxFile_success load relaxE write a fn _ _ (hl fn) (hr _) hw]
    simp [ih, traceOf]

theorem relax_structure_success (load : String → Except ε S) (relaxE : S → Except ε S)
    (write : String → S → Except ε Unit) (a : RelaxArgs)
    (loadF : String → S) (relaxF : S → S)
    (hl : ∀ fn, load fn = .ok (loadF fn)) (hr : ∀ s, relaxE s = .ok (relaxF s))
    (hw : ∀ p x, write p x = Except.ok ()) :
    relax_structure load relaxE write a
      = (traceOf (fun fn => vPreRelax a (loadF fn) ++ outputTail a (relaxF (loadF fn)) fn)
           a.infile,
         Except.ok 0) := by
  unfold relax_structure
  rw [relaxLoop_success load relaxE write a loadF relaxF hl hr hw]

theorem traceOf_filter_single (q : CliEvent S → Bool) (f : String → List (CliEvent S))
    (g : String → CliEvent S) (h : ∀ fn, (f fn).filter q = [g fn]) :
    ∀ l, (traceOf f l).filter q = l.map g := by
  intro l
  induction l with
  | nil => rfl
  | cons fn rest ih => simp [traceOf, List.filter_append, h, ih]

theorem filter_output_vPre (a : RelaxArgs) (s : S) :
    (vPreRelax a s).filter isOutputAction = [] := by
  unfold vPreRelax
  split <;> simp [isOutputAction]

theorem filter_write_vPre (a : RelaxArgs) (s : S) :
    (vPreRelax a s).filter isWriteEvent = [] := by
  unfold vPreRelax
  split <;> simp [isWriteEvent]

theorem filter_output_tail (a : RelaxArgs) (f : S) (fn : String) :
    (outputTail a f fn).filter isOutputAction = [outputActionOf a f fn] := by
  unfold outputTail outputActionOf
  by_cases hs : pyTruthy a.suffix = true
  · simp [hs, isOutputAction]
  · cases ho : a.outfile <;> simp [hs, ho, isOutputAction]

/-- C1: when every external call succeeds, a `relax` invocation with input
file list `args.infile` performs exactly one output action per input file —
the suffixed-file write, the explicit-outfile write, or the final-structure
console print — and these actions appear in the trace in input order. -/
theorem relax_outputs_in_order (load : String → Except ε S) (relaxE : S → Except ε S)
    (write : String → S → Except ε Unit) (loadF : String → S) (relaxF : S → S)
    (a : RelaxArgs)
    (hl : ∀ fn, load fn = Except.ok (loadF fn)) (hr : ∀ s, relaxE s = Except.ok (relaxF s))
    (hw : ∀ p x, write p x = Except.ok ()) :
    (relax_structure load relaxE write a).1.filter isOutputAction
        = a.infile.map (fun fn => outputActionOf a (relaxF (loadF fn)) fn)
      ∧ ((relax_structure load relaxE write a).1.filter isOutputAction).length
        = a.infile.length := by
  rw [relax_structure_success load relaxE write a loadF relaxF hl hr hw]
  have hfilter : ∀ fn : String,
      ((vPreRelax a (loadF fn) ++ outputTail a (relaxF (loadF fn)) fn).filter isOutputAction)
        = [outputActionOf a (relaxF (loadF fn)) fn] := by
    intro fn
    rw [List.filter_append, filter_output_vPre, filter_output_tail]
    rfl
  constructor
  · exact traceOf_filter_single _ _ _ hfilter a.infile
  · rw [traceOf_filter_single _ _ _ hfilter a.infile, List.length_map]

theorem relax_outputs_in_order_witness :
    (relax_structure loadT relaxT writeT ⟨["a.cif", "b.cif"], false, none, none⟩).1.filter
        isOutputAction
      = [CliEvent.printFinal 1, CliEvent.printFinal 1] := by
  have h := relax_outputs_in_order loadT relaxT writeT loadFT relaxFT
    ⟨["a.cif", "b.cif"], false, none, none⟩
    (fun _ => rfl) (fun _ => rfl) (fun _ _ => rfl)
  exact h.1.trans (by decide)

theorem filter_write_tail_suffix (a : RelaxArgs) (f : S) (fn : String)
    (hs : pyTruthy a.suffix = true) :
    (outputTail a f fn).filter isWriteEvent = [CliEvent.writeFile (suffixedName a fn) f] := by
  unfold outputTail
  simp [hs, isWriteEvent]

theorem filter_write_tail_outfile (a : RelaxArgs) (f : S) (fn : String) (o : String)
    (hs : pyTruthy a.suffix = false) (ho : a.outfile = some o) :
    (outputTail a f fn).filter isWriteEvent = [CliEvent.writeFile o f] := by
  unfold outputTail
  simp [hs, ho, isWriteEvent]

/-- C2 (counterexample): at the invocation
`relax -i a.cif -s ""` the suffix option is set (to the empty string) and the
claimed output filename would be `a.cif` itself, yet the handler writes no
file at all: Python's `if args.suffix:` treats `""` as false and falls
through to the console-print branch. -/
theorem relax_suffix_empty_counterexample :
    (⟨["a.cif"], false, some "", none⟩ : RelaxArgs).suffix ≠ none
      ∧ suffixedName ⟨["a.cif"], false, some "", none⟩ "a.cif" = "a.cif"
      ∧ (relax_structure loadT relaxT writeT
          ⟨["a.cif"], false, some "", none⟩).1.filter isWriteEvent = [] :=
  ⟨by decide, by decide, by decide⟩

/-- C2 (amended): when the suffix option is set to a non-empty string and all
external calls succeed, the relax handler writes, for each input file `fn` and
in input order, exactly one file whose name is
`{original-basename}{suffix}{original-extension}` as computed by
`os.path.splitext`; the basename and extension recombine to the original
path. -/
theorem relax_suffix_filenames (load : String → Except ε S) (relaxE : S → Except ε S)
    (write : String → S → Except ε Unit) (loadF : String → S) (relaxF : S → S)
    (a : RelaxArgs)
    (hl : ∀ fn, load fn = Except.ok (loadF fn)) (hr : ∀ s, relaxE s = Except.ok (relaxF s))
    (hw : ∀ p x, write p x = Except.ok ()) (hs : pyTruthy a.suffix = true) :
    (relax_structure load relaxE write a).1.filter isWriteEvent
        = a.infile.map (fun fn => CliEvent.writeFile (suffixedName a fn) (relaxF (loadF fn)))
      ∧ ∀ fn : String, (splitext fn).1 ++ (splitext fn).2 = fn := by
  rw [relax_structure_success load relaxE write a loadF relaxF hl hr hw]
  refine ⟨?_, splitext_append⟩
  have hfilter : ∀ fn : String,
      ((vPreRelax a (loadF fn) ++ outputTail a (relaxF (loadF fn)) fn).filter isWriteEvent)
        = [CliEvent.writeFile (suffixedName a fn) (relaxF (loadF fn))] := by
    intro fn
    rw [List.filter_append, filter_write_vPre, filter_write_tail_suffix a _ fn hs]
    rfl
  exact traceOf_filter_single _ _ _ hfilter a.infile

theorem relax_suffix_filenames_witness :
    (relax_structure loadT relaxT writeT
        ⟨["dir/a.cif", "b.tar.gz"], false, some "_relax", none⟩).1.filter isWriteEvent
      = [CliEvent.writeFile "dir/a_relax.cif" 1, CliEvent.writeFile "b.tar_relax.gz" 1] := by
  have h := relax_suffix_filenames loadT relaxT writeT loadFT relaxFT
    ⟨["dir/a.cif", "b.tar.gz"], false, some "_relax", none⟩
    (fun _ => rfl) (fun _ => rfl) (fun _ _ => rfl) (by decide)
  exact h.1.trans (by decide)

/-- C9: with the explicit `-o` outfile option (and no suffix), every relaxed
structure — one per input file, in input order — is written to the very same
path `args.outfile`, so with more than one input each later write targets the
file already written for an earlier input. -/
theorem relax_outfile_same_path (load : String → Except ε S) (relaxE : S → Except ε S)
    (write : String → S → Except ε Unit) (loadF : String → S) (relaxF : S → S)
    (a : RelaxArgs) (o : String)
    (hl : ∀ fn, load fn = Except.ok (loadF fn)) (hr : ∀ s, relaxE s = Except.ok (relaxF s))
    (hw : ∀ p x, write p x = Except.ok ()) (hs : pyTruthy a.suffix = false)
    (ho : a.outfile = some o) :
    (relax_structure load relaxE write a).1.filter isWriteEvent
      = a.infile.map (fun fn => CliEvent.writeFile o (relaxF (loadF fn))) := by
  rw [relax_structure_success load relaxE write a loadF relaxF hl hr hw]
  have hfilter : ∀ fn : String,
      ((vPreRelax a (loadF fn) ++ outputTail a (relaxF (loadF fn)) fn).filter isWriteEvent)
        = [CliEvent.writeFile o (relaxF (loadF fn))] := by
    intro fn
    rw [List.filter_append, filter_write_vPre, filter_write_tail_outfile a _ fn o hs ho]
    rfl
  exact traceOf_filter_single _ _ _ hfilter a.infile

/-! ## Success-path shape of the md handler -/

theorem mdFile_success (load : String → Except ε S) (mdNew : MDParams S → Except ε D)
    (mdGo : D → Int → Except ε Unit) (b : MdArgs) (fn : String) (s0 : S) (d0 : D)
    (hl : load fn = .ok s0) (hn : mdNew (mkParams b s0) = .ok d0)
    (hg : ∀ d n, mdGo d n = Except.ok ()) :
    mdFile load mdNew mdGo b fn
      = (vPreMd b s0 ++ [.mdConstruct (mkParams b s0), .mdRun b.nsteps], none) := by
  simp only [mdFile, hl, hn, hg, vPreMd]

theorem mdLoop_success (load : String → Except ε S) (mdNew : MDParams S → Except ε D)
    (mdGo : D → Int → Except ε Unit) (b : MdArgs) (loadF : String → S) (newF : MDParams S → D)
    (hl : ∀ fn, load fn = .ok (loadF fn)) (hn : ∀ p, mdNew p = .ok (newF p))
    (hg : ∀ d n, mdGo d n = Except.ok ()) :
    ∀ l, mdLoop load mdNew mdGo b l
      = (traceOf (fun fn =>
            vPreMd b (loadF fn) ++ [.mdConstruct (mkParams b (loadF fn)), .mdRun b.nsteps]) l,
         none) := by
  intro l
  induction l with
  | nil => rfl
  | cons fn rest ih =>
    rw [mdLoop, mdFile_success load mdNew mdGo b fn _ (newF (mkParams b (loadF fn)))
      (hl fn) (hn _) hg]
    simp [ih, traceOf]

theorem run_md_success (load : String → Except ε S) (mdNew : MDParams S → Except ε D)
    (mdGo : D → Int → Except ε Unit) (b : MdArgs) (loadF : String → S) (newF : MDParams S → D)
    (hl : ∀ fn, load fn = .ok (loadF fn)) (hn : ∀ p, mdNew p = .ok (newF p))
    (hg : ∀ d n, mdGo d n = Except.ok ()) :
    run_md load mdNew mdGo b
      = (traceOf (fun fn =>
            vPreMd b (loadF fn) ++ [.mdConstruct (mkParams b (loadF fn)), .mdRun b.nsteps])
           b.infile,
         Except.ok 0) := by
  unfold run_md
  rw [mdLoop_success load mdNew mdGo b loadF newF hl hn hg]

theorem traceOf_filter (q : CliEvent S → Bool) (f g : String → List (CliEvent S))
    (h : ∀ fn, (f fn).filter q = g fn) :
    ∀ l, (traceOf f l).filter q = traceOf g l := by
  intro l
  induction l with
  | nil => rfl
  | cons fn rest ih => simp [traceOf, List.filter_append, h, ih]

theorem filter_md_vPre (b : MdArgs) (s : S) : (vPreMd b s).filter isMdEvent = [] := by
  unfold vPreMd
  split <;> simp [isMdEvent]

/-- C8: when every external call succeeds, the md handler constructs, for each
input file in order, exactly one `MolecularDynamics` driver whose keyword
arguments are the structure loaded from that file together with the parsed
`temperature`, `ensemble`, `timestep`, `trajectory`, `logfile` and
`loginterval`, and immediately calls its `run` routine exactly once with
`steps` equal to the parsed `nsteps`. -/
theorem md_driver_once_per_file (load : String → Except ε S) (mdNew : MDParams S → Except ε D)
    (mdGo : D → Int → Except ε Unit) (b : MdArgs) (loadF : String → S) (newF : MDParams S → D)
    (hl : ∀ fn, load fn = .ok (loadF fn)) (hn : ∀ p, mdNew p = .ok (newF p))
    (hg : ∀ d n, mdGo d n = Except.ok ()) :
    (run_md load mdNew mdGo b).1.filter isMdEvent
      = traceOf (fun fn =>
          [CliEvent.mdConstruct
             ⟨loadF fn, b.temp, b.ensemble, b.timestep, b.trajectory, b.logfile, b.loginterval⟩,
           CliEvent.mdRun b.nsteps]) b.infile := by
  rw [run_md_success load mdNew mdGo b loadF newF hl hn hg]
  exact traceOf_filter _ _ _
    (fun fn => by
      rw [List.filter_append, filter_md_vPre]
      simp [isMdEvent, mkParams]) b.infile

theorem md_driver_once_per_file_witness :
    (run_md loadT mdNewT mdGoT
        ⟨["a.cif"], false, 300, "nvt", 2, "md.traj", "md.log", 100, 10⟩).1.filter isMdEvent
      = [CliEvent.mdConstruct ⟨0, 300, "nvt", 2, "md.traj", "md.log", 100⟩,
         CliEvent.mdRun 10] := by
  have h := md_driver_once_per_file loadT mdNewT mdGoT
    ⟨["a.cif"], false, 300, "nvt", 2, "md.traj", "md.log", 100, 10⟩ loadFT mdNewFT
    (fun _ => rfl) (fun _ => rfl) (fun _ _ => rfl)
  exact h.trans (by decide)

theorem relax_outfile_same_path_witness :
    (relax_structure loadT relaxT writeT
        ⟨["a.cif", "b.cif"], false, none, some "out.cif"⟩).1.filter isWriteEvent
      = [CliEvent.writeFile "out.cif" 1, CliEvent.writeFile "out.cif" 1] := by
  have h := relax_outfile_same_path loadT relaxT writeT loadFT relaxFT
    ⟨["a.cif", "b.cif"], false, none, some "out.cif"⟩ "out.cif"
    (fun _ => rfl) (fun _ => rfl) (fun _ _ => rfl) (by decide) rfl
  exact h.trans (by decide)

/-! ## Error propagation -/

theorem relaxLoop_append_ok (load : String → Except ε S) (relaxE : S → Except ε S)
    (write : String → S → Except ε Unit) (a : RelaxArgs) (rest : List String) :
    ∀ pre : List String, (∀ g ∈ pre, (relaxFile load relaxE write a g).2 = none) →
      relaxLoop load relaxE write a (pre ++ rest)
        = ((relaxLoop load relaxE write a pre).1 ++ (relaxLoop load relaxE write a rest).1,
           (relaxLoop load relaxE write a rest).2) := by
  intro pre
  induction pre with
  | nil => intro _; simp [relaxLoop]
  | cons g gs ih =>
    intro hpre
    have hg : (relaxFile load relaxE write a g).2 = none := hpre g (by simp)
    cases hfe : relaxFile load relaxE write a g with
    | mk t e =>
      rw [hfe] at hg
      simp only at hg
      subst hg
      rw [List.cons_append, relaxLoop, hfe, relaxLoop, hfe,
        ih (fun x hx => hpre x (by simp [hx]))]
      simp

theorem relaxLoop_error_head (load : String → Except ε S) (relaxE : S → Except ε S)
    (write : String → S → Except ε Unit) (a : RelaxArgs) (fn : String) (post : List String)
    (t : List (CliEvent S)) (e : ε)
    (hf : relaxFile load relaxE write a fn = (t, some e)) :
    relaxLoop load relaxE write a (fn :: post) = (t, some e) := by
  rw [relaxLoop, hf]

theorem mdLoop_append_ok (load : String → Except ε S) (mdNew : MDParams S → Except ε D)
    (mdGo : D → Int → Except ε Unit) (b : MdArgs) (rest : List String) :
    ∀ pre : List String, (∀ g ∈ pre, (mdFile load mdNew mdGo b g).2 = none) →
      mdLoop load mdNew mdGo b (pre ++ rest)
        = ((mdLoop load mdNew mdGo b pre).1 ++ (mdLoop load mdNew mdGo b rest).1,
           (mdLoop load mdNew mdGo b rest).2) := by
  intro pre
  induction pre with
  | nil => intro _; simp [mdLoop]
  | cons g gs ih =>
    intro hpre
    have hg : (mdFile load mdNew mdGo b g).2 = none := hpre g (by simp)
    cases hfe : mdFile load mdNew mdGo b g with
    | mk t e =>
      rw [hfe] at hg
      simp only at hg
      subst hg
      rw [List.cons_append, mdLoop, hfe, mdLoop, hfe,
        ih (fun x hx => hpre x (by simp [hx]))]
      simp

theorem mdLoop_error_head (load : String → Except ε S) (mdNew : MDParams S → Except ε D)
    (mdGo : D → Int → Except ε Unit) (b : MdArgs) (fn : String) (post : List String)
    (t : List (CliEvent S)) (e : ε)
    (hf : mdFile load mdNew mdGo b fn = (t, some e)) :
    mdLoop load mdNew mdGo b (fn :: post) = (t, some e) := by
  rw [mdLoop, hf]

/-- C7: if, while some input file is being processed, an external call raises
an error, then the handler (relax or md) stops there: its result is exactly
the events of the earlier, successful files followed by the partial events of
the failing file, together with the untranslated error — independent of the
input files listed after the failing one, which are therefore never
processed. -/
theorem external_error_propagates (load : String → Except ε S) (relaxE : S → Except ε S)
    (write : String → S → Except ε Unit) (mdNew : MDParams S → Except ε D)
    (mdGo : D → Int → Except ε Unit) (a : RelaxArgs) (b : MdArgs)
    (pre post pre2 post2 : List String) (fn fn2 : String)
    (t t2 : List (CliEvent S)) (e e2 : ε) :
    (a.infile = pre ++ fn :: post →
      (∀ g ∈ pre, (relaxFile load relaxE write a g).2 = none) →
      relaxFile load relaxE write a fn = (t, some e) →
      relax_structure load relaxE write a
        = ((relaxLoop load relaxE write a pre).1 ++ t, Except.error e))
    ∧ (b.infile = pre2 ++ fn2 :: post2 →
      (∀ g ∈ pre2, (mdFile load mdNew mdGo b g).2 = none) →
      mdFile load mdNew mdGo b fn2 = (t2, some e2) →
      run_md load mdNew mdGo b
        = ((mdLoop load mdNew mdGo b pre2).1 ++ t2, Except.error e2)) := by
  constructor
  · intro hin hpre hf
    unfold relax_structure
    rw [hin, relaxLoop_append_ok load relaxE write a (fn :: post) pre hpre,
      relaxLoop_error_head load relaxE write a fn post t e hf]
  · intro hin hpre hf
    unfold run_md
    rw [hin, mdLoop_append_ok load mdNew mdGo b (fn2 :: post2) pre2 hpre,
      mdLoop_error_head load mdNew mdGo b fn2 post2 t2 e2 hf]

theorem external_error_propagates_witness :
    (relax_structure loadB relaxT writeT ⟨["a.cif", "bad.cif", "c.cif"], false, none, none⟩
        = ([CliEvent.info "Final structure", CliEvent.printFinal 8], Except.error "OSError"))
      ∧ (run_md loadB mdNewT mdGoT
          ⟨["bad.cif", "c.cif"], false, 300, "nvt", 2, "md.traj", "md.log", 100, 10⟩
        = ([], Except.error "OSError")) := by
  have h := external_error_propagates loadB relaxT writeT mdNewT mdGoT
    ⟨["a.cif", "bad.cif", "c.cif"], false, none, none⟩
    ⟨["bad.cif", "c.cif"], false, 300, "nvt", 2, "md.traj", "md.log", 100, 10⟩
    ["a.cif"] ["c.cif"] [] ["c.cif"] "bad.cif" "bad.cif"
    [] [] "OSError" "OSError"
  constructor
  · exact (h.1 rfl (by decide) (by decide)).trans rfl
  · exact (h.2 rfl (by decide) (by decide)).trans rfl

/-! ## Verbosity does not change the external effects -/

theorem relaxFile_shape (load : String → Except ε S) (relaxE : S → Except ε S)
    (write : String → S → Except ε Unit) (a : RelaxArgs) (fn : String) :
    relaxFile load relaxE write a fn
      = match load fn with
        | .error e => ([], some e)
        | .ok s =>
          (vPreRelax a s ++ (relaxTail relaxE write a.suffix a.outfile fn s).1,
           (relaxTail relaxE write a.suffix a.outfile fn s).2) := by
  unfold relaxFile relaxTail vPreRelax
  cases hlo : load fn with
  | error e => rfl
  | ok s =>
    simp only [hlo]
    cases hre : relaxE s with
    | error e => simp [hre]
    | ok final =>
      simp only [hre]
      by_cases hs : pyTruthy a.suffix = true
      · simp only [hs, if_true]
        cases hw : write ((splitext fn).1 ++ a.suffix.getD "" ++ (splitext fn).2) final <;>
          simp [hw]
      · cases ho : a.outfile with
        | some o => cases hw : write o final <;> simp [hs, ho, hw]
        | none => simp [hs, ho]

theorem mdFile_shape (load : String → Except ε S) (mdNew : MDParams S → Except ε D)
    (mdGo : D → Int → Except ε Unit) (b : MdArgs) (fn : String) :
    mdFile load mdNew mdGo b fn
      = match load fn with
        | .error e => ([], some e)
        | .ok s => (vPreMd b s ++ (mdTail mdNew mdGo b s).1, (mdTail mdNew mdGo b s).2) := by
  unfold mdFile mdTail vPreMd
  cases hlo : load fn with
  | error e => rfl
  | ok s =>
    simp only [hlo]
    cases hn : mdNew (mkParams b s) with
    | error e => simp [hn]
    | ok d =>
      simp only [hn]
      cases hg : mdGo d b.nsteps <;> simp [hg]

theorem relaxFile_verbose_parts (load : String → Except ε S) (relaxE : S → Except ε S)
    (write : String → S → Except ε Unit) (a : RelaxArgs) (fn : String) :
    ∃ p : List (CliEvent S),
      p.filter isExtEffect = []
      ∧ relaxFile load relaxE write { a with verbose := true } fn
          = (p ++ (relaxFile load relaxE write { a with verbose := false } fn).1,
             (relaxFile load relaxE write { a with verbose := false } fn).2) := by
  rw [relaxFile_shape load relaxE write { a with verbose := true } fn,
    relaxFile_shape load relaxE write { a with verbose := false } fn]
  cases load fn with
  | error e => exact ⟨[], rfl, rfl⟩
  | ok s =>
    refine ⟨[.info "Starting structure", .showStruct s, .info "Relaxing..."],
      by simp [isExtEffect], ?_⟩
    rfl

theorem mdFile_verbose_parts (load : String → Except ε S) (mdNew : MDParams S → Except ε D)
    (mdGo : D → Int → Except ε Unit) (b : MdArgs) (fn : String) :
    ∃ p : List (CliEvent S),
      p.filter isExtEffect = []
      ∧ mdFile load mdNew mdGo { b with verbose := true } fn
          = (p ++ (mdFile load mdNew mdGo { b with verbose := false } fn).1,
             (mdFile load mdNew mdGo { b with verbose := false } fn).2) := by
  rw [mdFile_shape load mdNew mdGo { b with verbose := true } fn,
    mdFile_shape load mdNew mdGo { b with verbose := false } fn]
  cases load fn with
  | error e => exact ⟨[], rfl, rfl⟩
  | ok s =>
    refine ⟨[.info "Starting structure", .showStruct s, .info "Running MD..."],
      by simp [isExtEffect], ?_⟩
    rfl

theorem relaxLoop_verbose (load : String → Except ε S) (relaxE : S → Except ε S)
    (write : String → S → Except ε Unit) (a : RelaxArgs) : ∀ l : List String,
    (relaxLoop load relaxE write { a with verbose := true } l).2
        = (relaxLoop load relaxE write { a with verbose := false } l).2
      ∧ (relaxLoop load relaxE write { a with verbose := true } l).1.filter isExtEffect
        = (relaxLoop load relaxE write { a with verbose := false } l).1.filter isExtEffect
      ∧ List.Sublist (relaxLoop load relaxE write { a with verbose := false } l).1
          (relaxLoop load relaxE write { a with verbose := true } l).1 := by
  intro l
  induction l with
  | nil => exact ⟨rfl, rfl, List.Sublist.refl _⟩
  | cons fn rest ih =>
    obtain ⟨p, hp, heq⟩ := relaxFile_verbose_parts load relaxE write a fn
    cases hf : relaxFile load relaxE write { a with verbose := false } fn with
    | mk t e₀ =>
      rw [hf] at heq
      simp only at heq
      rw [relaxLoop, relaxLoop, heq, hf]
      cases e₀ with
      | some e =>
        refine ⟨rfl, ?_, ?_⟩
        · rw [List.filter_append, hp, List.nil_append]
        · exact List.sublist_append_right p t
      | none =>
        obtain ⟨ih₂, ihf, ihs⟩ := ih
        refine ⟨ih₂, ?_, ?_⟩
        · simp only [List.filter_append, hp, List.nil_append, List.append_assoc]
          rw [ihf]
        · simp only [List.append_assoc]
          exact ((List.Sublist.refl t).append ihs).trans
            (List.sublist_append_right p (t ++ _))

theorem mdLoop_verbose (load : String → Except ε S) (mdNew : MDParams S → Except ε D)
    (mdGo : D → Int → Except ε Unit) (b : MdArgs) : ∀ l : List String,
    (mdLoop load mdNew mdGo { b with verbose := true } l).2
        = (mdLoop load mdNew mdGo { b with verbose := false } l).2
      ∧ (mdLoop load mdNew mdGo { b with verbose := true } l).1.filter isExtEffect
        = (mdLoop load mdNew mdGo { b with verbose := false } l).1.filter isExtEffect
      ∧ List.Sublist (mdLoop load mdNew mdGo { b with verbose := false } l).1
          (mdLoop load mdNew mdGo { b with verbose := true } l).1 := by
  intro l
  induction l with
  | nil => exact ⟨rfl, rfl, List.Sublist.refl _⟩
  | cons fn rest ih =>
    obtain ⟨p, hp, heq⟩ := mdFile_verbose_parts load mdNew mdGo b fn
    cases hf : mdFile load mdNew mdGo { b with verbose := false } fn with
    | mk t e₀ =>
      rw [hf] at heq
      simp only at heq
      rw [mdLoop, mdLoop, heq, hf]
      cases e₀ with
      | some e =>
        refine ⟨rfl, ?_, ?_⟩
        · rw [List.filter_append, hp, List.nil_append]
        · exact List.sublist_append_right p t
      | none =>
        obtain ⟨ih₂, ihf, ihs⟩ := ih
        refine ⟨ih₂, ?_, ?_⟩
        · simp only [List.filter_append, hp, List.nil_append, List.append_assoc]
          rw [ihf]
        · simp only [List.append_assoc]
          exact ((List.Sublist.refl t).append ihs).trans
            (List.sublist_append_right p (t ++ _))

theorem relax_structure_eq_loop (load : String → Except ε S) (relaxE : S → Except ε S)
    (write : String → S → Except ε Unit) (a : RelaxArgs) :
    relax_structure load relaxE write a
      = ((relaxLoop load relaxE write a a.infile).1,
         wrapExit (relaxLoop load relaxE write a a.infile).2) := by
  unfold relax_structure wrapExit
  cases relaxLoop load relaxE write a a.infile with
  | mk t e₀ => cases e₀ <;> rfl

theorem run_md_eq_loop (load : String → Except ε S) (mdNew : MDParams S → Except ε D)
    (mdGo : D → Int → Except ε Unit) (b : MdArgs) :
    run_md load mdNew mdGo b
      = ((mdLoop load mdNew mdGo b b.infile).1,
         wrapExit (mdLoop load mdNew mdGo b b.infile).2) := by
  unfold run_md wrapExit
  cases mdLoop load mdNew mdGo b b.infile with
  | mk t e₀ => cases e₀ <;> rfl

/-- C10: the verbose flag does not interfere with external effects.  Two runs
of the relax handler (or the md handler) that differ only in the verbose flag
produce the same sequence of file writes and MD driver effects, and the same
return value or propagated error; the verbose run only inserts additional
console events (the non-verbose trace is a sublist of the verbose trace). -/
theorem verbose_noninterference (load : String → Except ε S) (relaxE : S → Except ε S)
    (write : String → S → Except ε Unit) (mdNew : MDParams S → Except ε D)
    (mdGo : D → Int → Except ε Unit) (a : RelaxArgs) (b : MdArgs) :
    ((relax_structure load relaxE write { a with verbose := true }).1.filter isExtEffect
        = (relax_structure load relaxE write { a with verbose := false }).1.filter isExtEffect)
      ∧ (relax_structure load relaxE write { a with verbose := true }).2
        = (relax_structure load relaxE write { a with verbose := false }).2
      ∧ List.Sublist (relax_structure load relaxE write { a with verbose := false }).1
          (relax_structure load relaxE write { a with verbose := true }).1
      ∧ ((run_md load mdNew mdGo { b with verbose := true }).1.filter isExtEffect
        = (run_md load mdNew mdGo { b with verbose := false }).1.filter isExtEffect)
      ∧ (run_md load mdNew mdGo { b with verbose := true }).2
        = (run_md load mdNew mdGo { b with verbose := false }).2
      ∧ List.Sublist (run_md load mdNew mdGo { b with verbose := false }).1
          (run_md load mdNew mdGo { b with verbose := true }).1 := by
  obtain ⟨h₂, hf, hs⟩ := relaxLoop_verbose load relaxE write a a.infile
  obtain ⟨g₂, gf, gs⟩ := mdLoop_verbose load mdNew mdGo b b.infile
  have e₁ : relax_structure load relaxE write { a with verbose := true }
      = ((relaxLoop load relaxE write { a with verbose := true } a.infile).1,
         wrapExit (relaxLoop load relaxE write { a with verbose := true } a.infile).2) :=
    relax_structure_eq_loop load relaxE write { a with verbose := true }
  have e₂ : relax_structure load relaxE write { a with verbose := false }
      = ((relaxLoop load relaxE write { a with verbose := false } a.infile).1,
         wrapExit (relaxLoop load relaxE write { a with verbose := false } a.infile).2) :=
    relax_structure_eq_loop load relaxE write { a with verbose := false }
  have e₃ : run_md load mdNew mdGo { b with verbose := true }
      = ((mdLoop load mdNew mdGo { b with verbose := true } b.infile).1,
         wrapExit (mdLoop load mdNew mdGo { b with verbose := true } b.infile).2) :=
    run_md_eq_loop load mdNew mdGo { b with verbose := true }
  have e₄ : run_md load mdNew mdGo { b with verbose := false }
      = ((mdLoop load mdNew mdGo { b with verbose := false } b.infile).1,
         wrapExit (mdLoop load mdNew mdGo { b with verbose := false } b.infile).2) :=
    run_md_eq_loop load mdNew mdGo { b with verbose := false }
  rw [e₁, e₂, e₃, e₄]
  exact ⟨hf, congrArg wrapExit h₂, hs, gf, congrArg wrapExit g₂, gs⟩

theorem mem_dropWhile_of_not (p : α → Bool) :
    ∀ (l : List α) (a : α), a ∈ l → p a = false → a ∈ l.dropWhile p := by
  intro l
  induction l with
  | nil => intro a h; cases h
  | cons x xs ih =>
    intro a h hpa
    by_cases hx : p x
    · rw [List.dropWhile_cons_of_pos hx]
      cases h with
      | head => rw [hpa] at hx; cases hx
      | tail _ h2 => exact ih a h2 hpa
    · rw [List.dropWhile_cons_of_neg hx]
      exact h

theorem exists_name_mono {sig : Type} {o : OptSpec sig} {l1 l2 : List String}
    (hsub : ∀ x, x ∈ l1 → x ∈ l2) :
    (∃ n ∈ o.names, n ∈ l1) → ∃ n ∈ o.names, n ∈ l2 := by
  rintro ⟨n, hn, hnl⟩
  exact ⟨n, hn, hsub n hnl⟩

theorem preservesF_flag {sig bT : Type} {f : sig → bT} {o : OptSpec sig}
    {upd : sig → sig} (hk : o.kind = .flag upd) (h : preservesF f o) :
    ∀ st, f (upd st) = f st := by
  unfold preservesF at h
  rw [hk] at h
  exact h

theorem preservesF_one {sig bT : Type} {f : sig → bT} {o : OptSpec sig}
    {upd : sig → String → Except PError sig} (hk : o.kind = .one upd) (h : preservesF f o) :
    ∀ st v st1, upd st v = .ok st1 → f st1 = f st := by
  unfold preservesF at h
  rw [hk] at h
  exact h

theorem preservesF_plus {sig bT : Type} {f : sig → bT} {o : OptSpec sig}
    {upd : sig → List String → sig} (hk : o.kind = .plus upd) (h : preservesF f o) :
    ∀ st vs, f (upd st vs) = f st := by
  unfold preservesF at h
  rw [hk] at h
  exact h

theorem keepsInv_flag {sig : Type} {P : sig → Prop} {o : OptSpec sig}
    {upd : sig → sig} (hk : o.kind = .flag upd) (h : keepsInv P o) :
    ∀ st, P st → P (upd st) := by
  unfold keepsInv at h
  rw [hk] at h
  exact h

theorem keepsInv_one {sig : Type} {P : sig → Prop} {o : OptSpec sig}
    {upd : sig → String → Except PError sig} (hk : o.kind = .one upd) (h : keepsInv P o) :
    ∀ st v st1, upd st v = .ok st1 → P st → P st1 := by
  unfold keepsInv at h
  rw [hk] at h
  exact h

theorem keepsInv_plus {sig : Type} {P : sig → Prop} {o : OptSpec sig}
    {upd : sig → List String → sig} (hk : o.kind = .plus upd) (h : keepsInv P o) :
    ∀ st vs, P st → P (upd st vs) := by
  unfold keepsInv at h
  rw [hk] at h
  exact h

theorem setsTrue_flag {sig : Type} {g : sig → Bool} {o : OptSpec sig}
    {upd : sig → sig} (hk : o.kind = .flag upd) (h : setsTrue g o) :
    ∀ st, g (upd st) = true := by
  unfold setsTrue at h
  rw [hk] at h
  exact h

theorem setsTrue_one {sig : Type} {g : sig → Bool} {o : OptSpec sig}
    {upd : sig → String → Except PError sig} (hk : o.kind = .one upd) (h : setsTrue g o) :
    ∀ st v st1, upd st v = .ok st1 → g st1 = true := by
  unfold setsTrue at h
  rw [hk] at h
  exact h

theorem setsTrue_plus {sig : Type} {g : sig → Bool} {o : OptSpec sig}
    {upd : sig → List String → sig} (hk : o.kind = .plus upd) (h : setsTrue g o) :
    ∀ st vs, g (upd st vs) = true := by
  unfold setsTrue at h
  rw [hk] at h
  exact h

theorem scanArgsGo_preserve {sig bT : Type} (table : List (OptSpec sig)) (f : sig → bT)
    (fuel : Nat) (tokens : List String) (st : sig) :
    ∀ st2, (∀ o ∈ table, (∃ n ∈ o.names, n ∈ tokens) → preservesF f o) →
      scanArgsGo table fuel tokens st = .ok st2 → f st2 = f st := by
  induction fuel, tokens, st using scanArgsGo.induct with
  | table => exact table
  | case1 fuel st =>
    intro st2 _ h
    simp only [scanArgsGo] at h
    cases h
    rfl
  | case2 t tail st =>
    intro st2 _ h
    simp only [scanArgsGo] at h
    exact Except.noConfusion h
  | case3 fuel t rest st hfind =>
    intro st2 _ h
    rw [scanArgsGo.eq_def] at h
    simp only [hfind] at h
    exact Except.noConfusion h
  | case4 fuel t rest st o hfind upd hkind ih =>
    intro st2 hpres h
    rw [scanArgsGo.eq_def] at h
    simp only [hfind, hkind] at h
    have ho : o ∈ table := List.mem_of_find?_eq_some hfind
    have ht : t ∈ o.names := by simpa using List.find?_some hfind
    have hp := preservesF_flag hkind (hpres o ho ⟨t, ht, List.mem_cons_self t rest⟩)
    have hrec := ih st2
      (fun o2 ho2 hex => hpres o2 ho2
        (exists_name_mono (fun x hx => List.mem_cons_of_mem _ hx) hex)) h
    rw [hrec, hp]
  | case5 fuel t st o hfind upd hkind =>
    intro st2 _ h
    rw [scanArgsGo.eq_def] at h
    simp only [hfind, hkind] at h
    exact Except.noConfusion h
  | case6 fuel t st o hfind upd hkind v rest hv =>
    intro st2 _ h
    rw [scanArgsGo.eq_def] at h
    simp only [hfind, hkind, hv, if_true] at h
    exact Except.noConfusion h
  | case7 fuel t st o hfind upd hkind v rest hv e hupd =>
    intro st2 _ h
    rw [scanArgsGo.eq_def] at h
    simp only [hfind, hkind] at h
    rw [if_neg hv] at h
    simp only [hupd] at h
    exact Except.noConfusion h
  | case8 fuel t st o hfind upd hkind v rest hv st1 hupd ih =>
    intro st2 hpres h
    rw [scanArgsGo.eq_def] at h
    simp only [hfind, hkind] at h
    rw [if_neg hv] at h
    simp only [hupd] at h
    have ho : o ∈ table := List.mem_of_find?_eq_some hfind
    have ht : t ∈ o.names := by simpa using List.find?_some hfind
    have hp := preservesF_one hkind (hpres o ho ⟨t, ht, List.mem_cons_self t _⟩) st v st1 hupd
    have hrec := ih st2
      (fun o2 ho2 hex => hpres o2 ho2
        (exists_name_mono (fun x hx => List.mem_cons_of_mem _ (List.mem_cons_of_mem _ hx)) hex)) h
    rw [hrec, hp]
  | case9 fuel t rest st o hfind upd hkind hemp =>
    intro st2 _ h
    rw [scanArgsGo.eq_def] at h
    simp only [hfind, hkind, hemp, if_true] at h
    exact Except.noConfusion h
  | case10 fuel t rest st o hfind upd hkind hemp ih =>
    intro st2 hpres h
    rw [scanArgsGo.eq_def] at h
    simp only [hfind, hkind] at h
    rw [if_neg hemp] at h
    have ho : o ∈ table := List.mem_of_find?_eq_some hfind
    have ht : t ∈ o.names := by simpa using List.find?_some hfind
    have hp := preservesF_plus hkind (hpres o ho ⟨t, ht, List.mem_cons_self t rest⟩)
    have hrec := ih st2
      (fun o2 ho2 hex => hpres o2 ho2
        (exists_name_mono
          (fun x hx => List.mem_cons_of_mem _ ((List.dropWhile_sublist _).subset hx)) hex)) h
    rw [hrec, hp]

theorem scanArgs_preserve {sig bT : Type} (table : List (OptSpec sig)) (f : sig → bT)
    (tokens : List String) (st : sig) :
    ∀ st2, (∀ o ∈ table, (∃ n ∈ o.names, n ∈ tokens) → preservesF f o) →
      scanArgs table tokens st = .ok st2 → f st2 = f st :=
  fun st2 hpres h => scanArgsGo_preserve table f tokens.length tokens st st2 hpres h

theorem scanArgsGo_inv {sig : Type} (table : List (OptSpec sig)) (P : sig → Prop)
    (hkeep : ∀ o ∈ table, keepsInv P o) (fuel : Nat) (tokens : List String) (st : sig) :
    ∀ st2, scanArgsGo table fuel tokens st = .ok st2 → P st → P st2 := by
  induction fuel, tokens, st using scanArgsGo.induct with
  | table => exact table
  | case1 fuel st =>
    intro st2 h hP
    simp only [scanArgsGo] at h
    cases h
    exact hP
  | case2 t tail st =>
    intro st2 h _
    simp only [scanArgsGo] at h
    exact Except.noConfusion h
  | case3 fuel t rest st hfind =>
    intro st2 h _
    rw [scanArgsGo.eq_def] at h
    simp only [hfind] at h
    exact Except.noConfusion h
  | case4 fuel t rest st o hfind upd hkind ih =>
    intro st2 h hP
    rw [scanArgsGo.eq_def] at h
    simp only [hfind, hkind] at h
    have ho : o ∈ table := List.mem_of_find?_eq_some hfind
    exact ih st2 h (keepsInv_flag hkind (hkeep o ho) st hP)
  | case5 fuel t st o hfind upd hkind =>
    intro st2 h _
    rw [scanArgsGo.eq_def] at h
    simp only [hfind, hkind] at h
    exact Except.noConfusion h
  | case6 fuel t st o hfind upd hkind v rest hv =>
    intro st2 h _
    rw [scanArgsGo.eq_def] at h
    simp only [hfind, hkind, hv, if_true] at h
    exact Except.noConfusion h
  | case7 fuel t st o hfind upd hkind v rest hv e hupd =>
    intro st2 h _
    rw [scanArgsGo.eq_def] at h
    simp only [hfind, hkind] at h
    rw [if_neg hv] at h
    simp only [hupd] at h
    exact Except.noConfusion h
  | case8 fuel t st o hfind upd hkind v rest hv st1 hupd ih =>
    intro st2 h hP
    rw [scanArgsGo.eq_def] at h
    simp only [hfind, hkind] at h
    rw [if_neg hv] at h
    simp only [hupd] at h
    have ho : o ∈ table := List.mem_of_find?_eq_some hfind
    exact ih st2 h (keepsInv_one hkind (hkeep o ho) st v st1 hupd hP)
  | case9 fuel t rest st o hfind upd hkind hemp =>
    intro st2 h _
    rw [scanArgsGo.eq_def] at h
    simp only [hfind, hkind, hemp, if_true] at h
    exact Except.noConfusion h
  | case10 fuel t rest st o hfind upd hkind hemp ih =>
    intro st2 h hP
    rw [scanArgsGo.eq_def] at h
    simp only [hfind, hkind] at h
    rw [if_neg hemp] at h
    have ho : o ∈ table := List.mem_of_find?_eq_some hfind
    exact ih st2 h (keepsInv_plus hkind (hkeep o ho) st _ hP)

theorem scanArgs_inv {sig : Type} (table : List (OptSpec sig)) (P : sig → Prop)
    (hkeep : ∀ o ∈ table, keepsInv P o) (tokens : List String) (st : sig) :
    ∀ st2, scanArgs table tokens st = .ok st2 → P st → P st2 :=
  fun st2 h hP => scanArgsGo_inv table P hkeep tokens.length tokens st st2 h hP

theorem scanArgsGo_sets {sig : Type} (table : List (OptSpec sig)) (g : sig → Bool) (n : String)
    (hn : optionLike n = true)
    (hkeep : ∀ o ∈ table, keepsInv (fun st => g st = true) o)
    (hset : ∀ o ∈ table, n ∈ o.names → setsTrue g o) (fuel : Nat) (tokens : List String)
    (st : sig) :
    ∀ st2, scanArgsGo table fuel tokens st = .ok st2 → n ∈ tokens → g st2 = true := by
  induction fuel, tokens, st using scanArgsGo.induct with
  | table => exact table
  | case1 fuel st =>
    intro st2 _ hmem
    cases hmem
  | case2 t tail st =>
    intro st2 h _
    simp only [scanArgsGo] at h
    exact Except.noConfusion h
  | case3 fuel t rest st hfind =>
    intro st2 h _
    rw [scanArgsGo.eq_def] at h
    simp only [hfind] at h
    exact Except.noConfusion h
  | case4 fuel t rest st o hfind upd hkind ih =>
    intro st2 h hmem
    rw [scanArgsGo.eq_def] at h
    simp only [hfind, hkind] at h
    have ho : o ∈ table := List.mem_of_find?_eq_some hfind
    rcases List.mem_cons.mp hmem with hEq | hrest
    · have ht : n ∈ o.names := by
        rw [hEq]
        simpa using List.find?_some hfind
      have hg : g (upd st) = true := setsTrue_flag hkind (hset o ho ht) st
      exact scanArgsGo_inv table (fun st3 => g st3 = true) hkeep _ rest (upd st) st2 h hg
    · exact ih st2 h hrest
  | case5 fuel t st o hfind upd hkind =>
    intro st2 h _
    rw [scanArgsGo.eq_def] at h
    simp only [hfind, hkind] at h
    exact Except.noConfusion h
  | case6 fuel t st o hfind upd hkind v rest hv =>
    intro st2 h _
    rw [scanArgsGo.eq_def] at h
    simp only [hfind, hkind, hv, if_true] at h
    exact Except.noConfusion h
  | case7 fuel t st o hfind upd hkind v rest hv e hupd =>
    intro st2 h _
    rw [scanArgsGo.eq_def] at h
    simp only [hfind, hkind] at h
    rw [if_neg hv] at h
    simp only [hupd] at h
    exact Except.noConfusion h
  | case8 fuel t st o hfind upd hkind v rest hv st1 hupd ih =>
    intro st2 h hmem
    rw [scanArgsGo.eq_def] at h
    simp only [hfind, hkind] at h
    rw [if_neg hv] at h
    simp only [hupd] at h
    have ho : o ∈ table := List.mem_of_find?_eq_some hfind
    rcases List.mem_cons.mp hmem with hEq | hrest
    · have ht : n ∈ o.names := by
        rw [hEq]
        simpa using List.find?_some hfind
      have hg : g st1 = true := setsTrue_one hkind (hset o ho ht) st v st1 hupd
      exact scanArgsGo_inv table (fun st3 => g st3 = true) hkeep _ rest st1 st2 h hg
    · rcases List.mem_cons.mp hrest with hEq2 | hrest2
      · rw [hEq2] at hn
        rw [hn] at hv
        exact absurd rfl hv
      · exact ih st2 h hrest2
  | case9 fuel t rest st o hfind upd hkind hemp =>
    intro st2 h _
    rw [scanArgsGo.eq_def] at h
    simp only [hfind, hkind, hemp, if_true] at h
    exact Except.noConfusion h
  | case10 fuel t rest st o hfind upd hkind hemp ih =>
    intro st2 h hmem
    rw [scanArgsGo.eq_def] at h
    simp only [hfind, hkind] at h
    rw [if_neg hemp] at h
    have ho : o ∈ table := List.mem_of_find?_eq_some hfind
    rcases List.mem_cons.mp hmem with hEq | hrest
    · have ht : n ∈ o.names := by
        rw [hEq]
        simpa using List.find?_some hfind
      have hg : g (upd st (rest.takeWhile fun s => !optionLike s)) = true :=
        setsTrue_plus hkind (hset o ho ht) st _
      exact scanArgsGo_inv table (fun st3 => g st3 = true) hkeep _ _ _ st2 h hg
    · have hmem2 : n ∈ rest.dropWhile fun s => !optionLike s :=
        mem_dropWhile_of_not _ rest n hrest (by rw [hn]; rfl)
      exact ih st2 h hmem2

theorem scanArgs_sets {sig : Type} (table : List (OptSpec sig)) (g : sig → Bool) (n : String)
    (hn : optionLike n = true)
    (hkeep : ∀ o ∈ table, keepsInv (fun st => g st = true) o)
    (hset : ∀ o ∈ table, n ∈ o.names → setsTrue g o) (tokens : List String) (st : sig) :
    ∀ st2, scanArgs table tokens st = .ok st2 → n ∈ tokens → g st2 = true :=
  fun st2 h hmem =>
    scanArgsGo_sets table g n hn hkeep hset tokens.length tokens st st2 h hmem

theorem relaxScan_infile_preserved (tokens : List String) (acc : RelaxAcc)
    (hscan : scanArgs relaxTable tokens relaxInit = .ok acc)
    (h1 : "-i" ∉ tokens) (h2 : "--infile" ∉ tokens) : acc.infile = none := by
  have hpres : ∀ o ∈ relaxTable, (∃ n ∈ o.names, n ∈ tokens) → preservesF RelaxAcc.infile o := by
    intro o ho hex
    simp only [relaxTable, List.mem_cons, List.not_mem_nil, or_false] at ho
    rcases ho with h|h|h|h <;> subst h <;>
      first
      | (rcases hex with ⟨n, hn, hnt⟩
         simp only [List.mem_cons, List.not_mem_nil, or_false] at hn
         rcases hn with rfl | rfl
         · exact absurd hnt h1
         · exact absurd hnt h2)
      | (intro st
         rfl)
      | (intro st vs
         rfl)
      | (intro st v st1 hupd
         dsimp only at hupd
         revert hupd
         split <;> intro hupd <;>
           first
           | exact Except.noConfusion hupd
           | (cases hupd
              rfl))
  exact scanArgs_preserve relaxTable RelaxAcc.infile tokens relaxInit acc hpres hscan

theorem mdScan_infile_preserved (pf : String → Option Rat) (pm : String → Option Int)
    (tokens : List String) (acc : MdAcc)
    (hscan : scanArgs (mdTable pf pm) tokens mdInit = .ok acc)
    (h1 : "-i" ∉ tokens) (h2 : "--infile" ∉ tokens) : acc.infile = none := by
  have hpres : ∀ o ∈ mdTable pf pm, (∃ n ∈ o.names, n ∈ tokens) → preservesF MdAcc.infile o := by
    intro o ho hex
    simp only [mdTable, List.mem_cons, List.not_mem_nil, or_false] at ho
    rcases ho with h|h|h|h|h|h|h|h|h <;> subst h <;>
      first
      | (rcases hex with ⟨n, hn, hnt⟩
         simp only [List.mem_cons, List.not_mem_nil, or_false] at hn
         first
         | (rcases hn with rfl | rfl
            · exact absurd hnt h1
            · exact absurd hnt h2)
         | (subst hn
            exact absurd hnt h1))
      | (intro st
         rfl)
      | (intro st vs
         rfl)
      | (intro st v st1 hupd
         dsimp only at hupd
         revert hupd
         split <;> intro hupd <;>
           first
           | exact Except.noConfusion hupd
           | (cases hupd
              rfl))
      | (intro st v st1 hupd
         dsimp only at hupd
         cases hupd
         rfl)
  exact scanArgs_preserve (mdTable pf pm) MdAcc.infile tokens mdInit acc hpres hscan

theorem mdScan_temp_preserved (pf : String → Option Rat) (pm : String → Option Int)
    (tokens : List String) (acc : MdAcc)
    (hscan : scanArgs (mdTable pf pm) tokens mdInit = .ok acc)
    (h1 : "-t" ∉ tokens) (h2 : "--temp" ∉ tokens) : acc.temp = none := by
  have hpres : ∀ o ∈ mdTable pf pm, (∃ n ∈ o.names, n ∈ tokens) → preservesF MdAcc.temp o := by
    intro o ho hex
    simp only [mdTable, List.mem_cons, List.not_mem_nil, or_false] at ho
    rcases ho with h|h|h|h|h|h|h|h|h <;> subst h <;>
      first
      | (rcases hex with ⟨n, hn, hnt⟩
         simp only [List.mem_cons, List.not_mem_nil, or_false] at hn
         first
         | (rcases hn with rfl | rfl
            · exact absurd hnt h1
            · exact absurd hnt h2)
         | (subst hn
            exact absurd hnt h1))
      | (intro st
         rfl)
      | (intro st vs
         rfl)
      | (intro st v st1 hupd
         dsimp only at hupd
         revert hupd
         split <;> intro hupd <;>
           first
           | exact Except.noConfusion hupd
           | (cases hupd
              rfl))
      | (intro st v st1 hupd
         dsimp only at hupd
         cases hupd
         rfl)
  exact scanArgs_preserve (mdTable pf pm) MdAcc.temp tokens mdInit acc hpres hscan

theorem mdScan_ensemble_preserved (pf : String → Option Rat) (pm : String → Option Int)
    (tokens : List String) (acc : MdAcc)
    (hscan : scanArgs (mdTable pf pm) tokens mdInit = .ok acc)
    (h1 : "-e" ∉ tokens) (h2 : "--ensemble" ∉ tokens) : acc.ensemble = none := by
  have hpres : ∀ o ∈ mdTable pf pm, (∃ n ∈ o.names, n ∈ tokens) → preservesF MdAcc.ensemble o := by
    intro o ho hex
    simp only [mdTable, List.mem_cons, List.not_mem_nil, or_false] at ho
    rcases ho with h|h|h|h|h|h|h|h|h <;> subst h <;>
      first
      | (rcases hex with ⟨n, hn, hnt⟩
         simp only [List.mem_cons, List.not_mem_nil, or_false] at hn
         first
         | (rcases hn with rfl | rfl
            · exact absurd hnt h1
            · exact absurd hnt h2)
         | (subst hn
            exact absurd hnt h1))
      | (intro st
         rfl)
      | (intro st vs
         rfl)
      | (intro st v st1 hupd
         dsimp only at hupd
         revert hupd
         split <;> intro hupd <;>
           first
           | exact Except.noConfusion hupd
           | (cases hupd
              rfl))
      | (intro st v st1 hupd
         dsimp only at hupd
         cases hupd
         rfl)
  exact scanArgs_preserve (mdTable pf pm) MdAcc.ensemble tokens mdInit acc hpres hscan

theorem mdScan_timestep_preserved (pf : String → Option Rat) (pm : String → Option Int)
    (tokens : List String) (acc : MdAcc)
    (hscan : scanArgs (mdTable pf pm) tokens mdInit = .ok acc)
    (h1 : "-dt" ∉ tokens) (h2 : "--timestep" ∉ tokens) : acc.timestep = none := by
  have hpres : ∀ o ∈ mdTable pf pm, (∃ n ∈ o.names, n ∈ tokens) → preservesF MdAcc.timestep o := by
    intro o ho hex
    simp only [mdTable, List.mem_cons, List.not_mem_nil, or_false] at ho
    rcases ho with h|h|h|h|h|h|h|h|h <;> subst h <;>
      first
      | (rcases hex with ⟨n, hn, hnt⟩
         simp only [List.mem_cons, List.not_mem_nil, or_false] at hn
         first
         | (rcases hn with rfl | rfl
            · exact absurd hnt h1
            · exact absurd hnt h2)
         | (subst hn
            exact absurd hnt h1))
      | (intro st
         rfl)
      | (intro st vs
         rfl)
      | (intro st v st1 hupd
         dsimp only at hupd
         revert hupd
         split <;> intro hupd <;>
           first
           | exact Except.noConfusion hupd
           | (cases hupd
              rfl))
      | (intro st v st1 hupd
         dsimp only at hupd
         cases hupd
         rfl)
  exact scanArgs_preserve (mdTable pf pm) MdAcc.timestep tokens mdInit acc hpres hscan

theorem mdScan_nsteps_preserved (pf : String → Option Rat) (pm : String → Option Int)
    (tokens : List String) (acc : MdAcc)
    (hscan : scanArgs (mdTable pf pm) tokens mdInit = .ok acc)
    (h1 : "-n" ∉ tokens) (h2 : "--nsteps" ∉ tokens) : acc.nsteps = none := by
  have hpres : ∀ o ∈ mdTable pf pm, (∃ n ∈ o.names, n ∈ tokens) → preservesF MdAcc.nsteps o := by
    intro o ho hex
    simp only [mdTable, List.mem_cons, List.not_mem_nil, or_false] at ho
    rcases ho with h|h|h|h|h|h|h|h|h <;> subst h <;>
      first
      | (rcases hex with ⟨n, hn, hnt⟩
         simp only [List.mem_cons, List.not_mem_nil, or_false] at hn
         first
         | (rcases hn with rfl | rfl
            · exact absurd hnt h1
            · exact absurd hnt h2)
         | (subst hn
            exact absurd hnt h1))
      | (intro st
         rfl)
      | (intro st vs
         rfl)
      | (intro st v st1 hupd
         dsimp only at hupd
         revert hupd
         split <;> intro hupd <;>
           first
           | exact Except.noConfusion hupd
           | (cases hupd
              rfl))
      | (intro st v st1 hupd
         dsimp only at hupd
         cases hupd
         rfl)
  exact scanArgs_preserve (mdTable pf pm) MdAcc.nsteps tokens mdInit acc hpres hscan

theorem mdScan_trajectory_preserved (pf : String → Option Rat) (pm : String → Option Int)
    (tokens : List String) (acc : MdAcc)
    (hscan : scanArgs (mdTable pf pm) tokens mdInit = .ok acc)
    (h1 : "--traj" ∉ tokens) : acc.trajectory = "md.traj" := by
  have hpres : ∀ o ∈ mdTable pf pm, (∃ n ∈ o.names, n ∈ tokens) → preservesF MdAcc.trajectory o := by
    intro o ho hex
    simp only [mdTable, List.mem_cons, List.not_mem_nil, or_false] at ho
    rcases ho with h|h|h|h|h|h|h|h|h <;> subst h <;>
      first
      | (rcases hex with ⟨n, hn, hnt⟩
         simp only [List.mem_cons, List.not_mem_nil, or_false] at hn
         first
         | (rcases hn with rfl | rfl
            · exact absurd hnt h1
            · exact absurd hnt h2)
         | (subst hn
            exact absurd hnt h1))
      | (intro st
         rfl)
      | (intro st vs
         rfl)
      | (intro st v st1 hupd
         dsimp only at hupd
         revert hupd
         split <;> intro hupd <;>
           first
           | exact Except.noConfusion hupd
           | (cases hupd
              rfl))
      | (intro st v st1 hupd
         dsimp only at hupd
         cases hupd
         rfl)
  exact scanArgs_preserve (mdTable pf pm) MdAcc.trajectory tokens mdInit acc hpres hscan

theorem mdScan_logfile_preserved (pf : String → Option Rat) (pm : String → Option Int)
    (tokens : List String) (acc : MdAcc)
    (hscan : scanArgs (mdTable pf pm) tokens mdInit = .ok acc)
    (h1 : "--log" ∉ tokens) : acc.logfile = "md.log" := by
  have hpres : ∀ o ∈ mdTable pf pm, (∃ n ∈ o.names, n ∈ tokens) → preservesF MdAcc.logfile o := by
    intro o ho hex
    simp only [mdTable, List.mem_cons, List.not_mem_nil, or_false] at ho
    rcases ho with h|h|h|h|h|h|h|h|h <;> subst h <;>
      first
      | (rcases hex with ⟨n, hn, hnt⟩
         simp only [List.mem_cons, List.not_mem_nil, or_false] at hn
         first
         | (rcases hn with rfl | rfl
            · exact absurd hnt h1
            · exact absurd hnt h2)
         | (subst hn
            exact absurd hnt h1))
      | (intro st
         rfl)
      | (intro st vs
         rfl)
      | (intro st v st1 hupd
         dsimp only at hupd
         revert hupd
         split <;> intro hupd <;>
           first
           | exact Except.noConfusion hupd
           | (cases hupd
              rfl))
      | (intro st v st1 hupd
         dsimp only at hupd
         cases hupd
         rfl)
  exact scanArgs_preserve (mdTable pf pm) MdAcc.logfile tokens mdInit acc hpres hscan

theorem mdScan_loginterval_preserved (pf : String → Option Rat) (pm : String → Option Int)
    (tokens : List String) (acc : MdAcc)
    (hscan : scanArgs (mdTable pf pm) tokens mdInit = .ok acc)
    (h1 : "--loginterval" ∉ tokens) : acc.loginterval = 100 := by
  have hpres : ∀ o ∈ mdTable pf pm, (∃ n ∈ o.names, n ∈ tokens) → preservesF MdAcc.loginterval o := by
    intro o ho hex
    simp only [mdTable, List.mem_cons, List.not_mem_nil, or_false] at ho
    rcases ho with h|h|h|h|h|h|h|h|h <;> subst h <;>
      first
      | (rcases hex with ⟨n, hn, hnt⟩
         simp only [List.mem_cons, List.not_mem_nil, or_false] at hn
         first
         | (rcases hn with rfl | rfl
            · exact absurd hnt h1
            · exact absurd hnt h2)
         | (subst hn
            exact absurd hnt h1))
      | (intro st
         rfl)
      | (intro st vs
         rfl)
      | (intro st v st1 hupd
         dsimp only at hupd
         revert hupd
         split <;> intro hupd <;>
           first
           | exact Except.noConfusion hupd
           | (cases hupd
              rfl))
      | (intro st v st1 hupd
         dsimp only at hupd
         cases hupd
         rfl)
  exact scanArgs_preserve (mdTable pf pm) MdAcc.loginterval tokens mdInit acc hpres hscan

theorem relaxTable_keepsS :
    ∀ o ∈ relaxTable, keepsInv (fun st : RelaxAcc => st.seenS = true) o := by
  intro o ho
  simp only [relaxTable, List.mem_cons, List.not_mem_nil, or_false] at ho
  rcases ho with h|h|h|h <;> subst h <;>
    first
    | (intro st vs hP
       exact hP)
    | (intro st hP
       exact hP)
    | (intro st v st1 hupd hP
       dsimp only at hupd
       revert hupd
       split <;> intro hupd <;>
         first
         | exact Except.noConfusion hupd
         | (cases hupd
            first
            | rfl
            | exact hP)
         | (exact absurd hP (by assumption)))

theorem relaxTable_keepsO :
    ∀ o ∈ relaxTable, keepsInv (fun st : RelaxAcc => st.seenO = true) o := by
  intro o ho
  simp only [relaxTable, List.mem_cons, List.not_mem_nil, or_false] at ho
  rcases ho with h|h|h|h <;> subst h <;>
    first
    | (intro st vs hP
       exact hP)
    | (intro st hP
       exact hP)
    | (intro st v st1 hupd hP
       dsimp only at hupd
       revert hupd
       split <;> intro hupd <;>
         first
         | exact Except.noConfusion hupd
         | (cases hupd
            first
            | rfl
            | exact hP)
         | (exact absurd hP (by assumption)))

theorem relaxTable_setsS :
    ∀ n0, (n0 = "-s" ∨ n0 = "--suffix") →
      ∀ o ∈ relaxTable, n0 ∈ o.names → setsTrue RelaxAcc.seenS o := by
  intro n0 hn0 o ho hmem
  simp only [relaxTable, List.mem_cons, List.not_mem_nil, or_false] at ho
  rcases ho with h|h|h|h <;> subst h <;>
    simp only [List.mem_cons, List.not_mem_nil, or_false] at hmem <;>
    first
    | (rcases hn0 with rfl | rfl <;> rcases hmem with h2 | h2 <;> exact absurd h2 (by decide))
    | (intro st v st1 hupd
       dsimp only at hupd
       revert hupd
       split <;> intro hupd
       · exact Except.noConfusion hupd
       · cases hupd
         rfl)

theorem relaxTable_setsO :
    ∀ n0, (n0 = "-o" ∨ n0 = "--outfile") →
      ∀ o ∈ relaxTable, n0 ∈ o.names → setsTrue RelaxAcc.seenO o := by
  intro n0 hn0 o ho hmem
  simp only [relaxTable, List.mem_cons, List.not_mem_nil, or_false] at ho
  rcases ho with h|h|h|h <;> subst h <;>
    simp only [List.mem_cons, List.not_mem_nil, or_false] at hmem <;>
    first
    | (rcases hn0 with rfl | rfl <;> rcases hmem with h2 | h2 <;> exact absurd h2 (by decide))
    | (intro st v st1 hupd
       dsimp only at hupd
       revert hupd
       split <;> intro hupd
       · exact Except.noConfusion hupd
       · cases hupd
         rfl)

theorem relaxTable_mxInv :
    ∀ o ∈ relaxTable,
      keepsInv (fun st : RelaxAcc => st.seenS = false ∨ st.seenO = false) o := by
  intro o ho
  simp only [relaxTable, List.mem_cons, List.not_mem_nil, or_false] at ho
  rcases ho with h|h|h|h <;> subst h <;>
    first
    | (intro st vs hP
       exact hP)
    | (intro st hP
       exact hP)
    | (intro st v st1 hupd hP
       dsimp only at hupd
       revert hupd
       split <;> intro hupd
       · exact Except.noConfusion hupd
       · cases hupd
         first
         | (exact Or.inr (by simpa using (by assumption : ¬ _ = true)))
         | (exact Or.inl (by simpa using (by assumption : ¬ _ = true))))




/-! ## Finalize lemmas -/

theorem relaxFinalize_none (acc : RelaxAcc) (h : acc.infile = none) :
    ∀ a, relaxFinalize acc ≠ .ok a := by
  intro a hok
  unfold relaxFinalize at hok
  rw [h] at hok
  exact Except.noConfusion hok

theorem mdFinalize_missing_required (acc : MdAcc)
    (h : acc.infile = none ∨ acc.temp = none ∨ acc.ensemble = none
        ∨ acc.timestep = none ∨ acc.nsteps = none) :
    ∀ b, mdFinalize acc ≠ .ok b := by
  intro b hok
  unfold mdFinalize at hok
  cases hi : acc.infile <;> cases ht : acc.temp <;> cases he : acc.ensemble <;>
    cases hdt : acc.timestep <;> cases hn2 : acc.nsteps <;>
      rw [hi, ht, he, hdt, hn2] at hok <;> simp_all

theorem mdFinalize_ok_passthrough (acc : MdAcc) (b : MdArgs) (hok : mdFinalize acc = .ok b) :
    b.trajectory = acc.trajectory ∧ b.logfile = acc.logfile
      ∧ b.loginterval = acc.loginterval := by
  unfold mdFinalize at hok
  cases hi : acc.infile <;> cases ht : acc.temp <;> cases he : acc.ensemble <;>
    cases hdt : acc.timestep <;> cases hn2 : acc.nsteps <;>
      rw [hi, ht, he, hdt, hn2] at hok <;>
      first
      | exact Except.noConfusion hok
      | (cases hok
         exact ⟨rfl, rfl, rfl⟩)

/-! ## Parse-level consequences -/

theorem relaxParse_ok_infile (tokens : List String) (a : RelaxArgs)
    (hok : relaxParse tokens = .ok a) : "-i" ∈ tokens ∨ "--infile" ∈ tokens := by
  by_contra hno
  push_neg at hno
  obtain ⟨h1, h2⟩ := hno
  unfold relaxParse at hok
  cases hscan : scanArgs relaxTable tokens relaxInit with
  | error e =>
    rw [hscan] at hok
    exact Except.noConfusion hok
  | ok acc =>
    rw [hscan] at hok
    exact relaxFinalize_none acc (relaxScan_infile_preserved tokens acc hscan h1 h2) a hok

theorem relaxParse_mx_reject (tokens : List String)
    (hS : "-s" ∈ tokens ∨ "--suffix" ∈ tokens)
    (hO : "-o" ∈ tokens ∨ "--outfile" ∈ tokens) :
    ∀ a, relaxParse tokens ≠ .ok a := by
  intro a hok
  unfold relaxParse at hok
  cases hscan : scanArgs relaxTable tokens relaxInit with
  | error e =>
    rw [hscan] at hok
    exact Except.noConfusion hok
  | ok acc =>
    have hS2 : acc.seenS = true := by
      rcases hS with h | h
      · exact scanArgs_sets relaxTable RelaxAcc.seenS "-s" (by decide) relaxTable_keepsS
          (relaxTable_setsS "-s" (Or.inl rfl)) tokens relaxInit acc hscan h
      · exact scanArgs_sets relaxTable RelaxAcc.seenS "--suffix" (by decide) relaxTable_keepsS
          (relaxTable_setsS "--suffix" (Or.inr rfl)) tokens relaxInit acc hscan h
    have hO2 : acc.seenO = true := by
      rcases hO with h | h
      · exact scanArgs_sets relaxTable RelaxAcc.seenO "-o" (by decide) relaxTable_keepsO
          (relaxTable_setsO "-o" (Or.inl rfl)) tokens relaxInit acc hscan h
      · exact scanArgs_sets relaxTable RelaxAcc.seenO "--outfile" (by decide) relaxTable_keepsO
          (relaxTable_setsO "--outfile" (Or.inr rfl)) tokens relaxInit acc hscan h
    rcases scanArgs_inv relaxTable (fun st => st.seenS = false ∨ st.seenO = false)
        relaxTable_mxInv tokens relaxInit acc hscan (Or.inl rfl) with h | h
    · rw [hS2] at h
      exact Bool.noConfusion h
    · rw [hO2] at h
      exact Bool.noConfusion h

theorem mdParse_ok_required (pf : String → Option Rat) (pm : String → Option Int)
    (tokens : List String) (b : MdArgs) (hok : mdParse pf pm tokens = .ok b) :
    ("-i" ∈ tokens ∨ "--infile" ∈ tokens) ∧ ("-t" ∈ tokens ∨ "--temp" ∈ tokens)
      ∧ ("-e" ∈ tokens ∨ "--ensemble" ∈ tokens) ∧ ("-dt" ∈ tokens ∨ "--timestep" ∈ tokens)
      ∧ ("-n" ∈ tokens ∨ "--nsteps" ∈ tokens) := by
  unfold mdParse at hok
  cases hscan : scanArgs (mdTable pf pm) tokens mdInit with
  | error e =>
    rw [hscan] at hok
    exact Except.noConfusion hok
  | ok acc =>
    rw [hscan] at hok
    refine ⟨?_, ?_, ?_, ?_, ?_⟩ <;> by_contra hno <;> push_neg at hno
    · exact mdFinalize_missing_required acc
        (Or.inl (mdScan_infile_preserved pf pm tokens acc hscan hno.1 hno.2)) b hok
    · exact mdFinalize_missing_required acc
        (Or.inr (Or.inl (mdScan_temp_preserved pf pm tokens acc hscan hno.1 hno.2))) b hok
    · exact mdFinalize_missing_required acc
        (Or.inr (Or.inr (Or.inl
          (mdScan_ensemble_preserved pf pm tokens acc hscan hno.1 hno.2)))) b hok
    · exact mdFinalize_missing_required acc
        (Or.inr (Or.inr (Or.inr (Or.inl
          (mdScan_timestep_preserved pf pm tokens acc hscan hno.1 hno.2))))) b hok
    · exact mdFinalize_missing_required acc
        (Or.inr (Or.inr (Or.inr (Or.inr
          (mdScan_nsteps_preserved pf pm tokens acc hscan hno.1 hno.2))))) b hok

/-! ## Dispatch lemmas for `main` -/

theorem topParse_relax_err (pf : String → Option Rat) (pm : String → Option Int)
    (tokens : List String) (e : PError) (hp : relaxParse tokens = .error e) :
    topParse pf pm ("relax" :: tokens) = .parseErr e := by
  rw [topParse, if_pos rfl, hp]

theorem topParse_md_err (pf : String → Option Rat) (pm : String → Option Int)
    (tokens : List String) (e : PError) (hp : mdParse pf pm tokens = .error e) :
    topParse pf pm ("md" :: tokens) = .parseErr e := by
  rw [topParse, if_neg (by decide : ¬ ("md" : String) = "relax"), if_pos rfl, hp]

theorem main_relax_reject {S D ε : Type} (load : String → Except ε S)
    (relaxE : S → Except ε S) (write : String → S → Except ε Unit)
    (mdNew : MDParams S → Except ε D) (mdGo : D → Int → Except ε Unit)
    (pf : String → Option Rat) (pm : String → Option Int) (tokens : List String) (e : PError)
    (hp : relaxParse tokens = .error e) :
    main load relaxE write mdNew mdGo pf pm ("relax" :: tokens)
      = ([], .usageError 2 e) := by
  unfold main
  rw [topParse_relax_err pf pm tokens e hp]

theorem main_md_reject {S D ε : Type} (load : String → Except ε S)
    (relaxE : S → Except ε S) (write : String → S → Except ε Unit)
    (mdNew : MDParams S → Except ε D) (mdGo : D → Int → Except ε Unit)
    (pf : String → Option Rat) (pm : String → Option Int) (tokens : List String) (e : PError)
    (hp : mdParse pf pm tokens = .error e) :
    main load relaxE write mdNew mdGo pf pm ("md" :: tokens)
      = ([], .usageError 2 e) := by
  unfold main
  rw [topParse_md_err pf pm tokens e hp]

theorem wrapExit_ok {ε : Type} (e0 : Option ε) (c : Int) (h : wrapExit e0 = .ok c) :
    c = 0 := by
  cases e0 with
  | none =>
    cases h
    rfl
  | some e => exact Except.noConfusion h

/-- C3: for an `md` invocation that the parser accepts, an omitted `--traj`,
`--log` or `--loginterval` flag leaves the parsed namespace at the configured
defaults `md.traj`, `md.log` and `100`; the timestep flag, although it has a
configured default of `2.0`, is required, so an invocation omitting both
`-dt` and `--timestep` is never accepted. -/
theorem md_defaults (pf : String → Option Rat) (pm : String → Option Int)
    (tokens : List String) :
    (∀ b, mdParse pf pm tokens = .ok b →
        ("--traj" ∉ tokens → b.trajectory = "md.traj")
        ∧ ("--log" ∉ tokens → b.logfile = "md.log")
        ∧ ("--loginterval" ∉ tokens → b.loginterval = 100))
    ∧ (("-dt" ∉ tokens ∧ "--timestep" ∉ tokens) → ∀ b, mdParse pf pm tokens ≠ .ok b) := by
  constructor
  · intro b hok
    unfold mdParse at hok
    cases hscan : scanArgs (mdTable pf pm) tokens mdInit with
    | error e =>
      rw [hscan] at hok
      exact Except.noConfusion hok
    | ok acc =>
      rw [hscan] at hok
      obtain ⟨htr, hlg, hli⟩ := mdFinalize_ok_passthrough acc b hok
      refine ⟨fun hno => ?_, fun hno => ?_, fun hno => ?_⟩
      · rw [htr, mdScan_trajectory_preserved pf pm tokens acc hscan hno]
      · rw [hlg, mdScan_logfile_preserved pf pm tokens acc hscan hno]
      · rw [hli, mdScan_loginterval_preserved pf pm tokens acc hscan hno]
  · rintro ⟨h1, h2⟩ b hok
    unfold mdParse at hok
    cases hscan : scanArgs (mdTable pf pm) tokens mdInit with
    | error e =>
      rw [hscan] at hok
      exact Except.noConfusion hok
    | ok acc =>
      rw [hscan] at hok
      exact mdFinalize_missing_required acc
        (Or.inr (Or.inr (Or.inr (Or.inl
          (mdScan_timestep_preserved pf pm tokens acc hscan h1 h2))))) b hok

theorem md_defaults_witness :
    ((⟨["a.cif"], false, 300, "nvt", 2, "md.traj", "md.log", 100, 10⟩ : MdArgs).trajectory
        = "md.traj")
    ∧ ((⟨["a.cif"], false, 300, "nvt", 2, "md.traj", "md.log", 100, 10⟩ : MdArgs).logfile
        = "md.log")
    ∧ ((⟨["a.cif"], false, 300, "nvt", 2, "md.traj", "md.log", 100, 10⟩ : MdArgs).loginterval
        = 100)
    ∧ mdParse pfT pmT ["-i", "a.cif", "-t", "300", "-e", "nvt", "-n", "10"]
        ≠ .ok ⟨["a.cif"], false, 300, "nvt", 2, "md.traj", "md.log", 100, 10⟩ := by
  have h := md_defaults pfT pmT ["-i", "a.cif", "-t", "300", "-e", "nvt", "-dt", "2", "-n", "10"]
  have hok : mdParse pfT pmT ["-i", "a.cif", "-t", "300", "-e", "nvt", "-dt", "2", "-n", "10"]
      = .ok ⟨["a.cif"], false, 300, "nvt", 2, "md.traj", "md.log", 100, 10⟩ := rfl
  have h2 := md_defaults pfT pmT ["-i", "a.cif", "-t", "300", "-e", "nvt", "-n", "10"]
  exact ⟨(h.1 _ hok).1 (by decide), (h.1 _ hok).2.1 (by decide),
    (h.1 _ hok).2.2 (by decide), h2.2 ⟨by decide, by decide⟩ _⟩

/-- C4: both handlers return `0` whenever they complete without an external
error; with no subcommand at all, `main` prints the help text and exits with
the process failure code `-1` without invoking any handler (the help print is
its only event); and whenever `main` returns normally its value is `0`. -/
theorem dispatcher_exit_codes {S D ε : Type} (load : String → Except ε S)
    (relaxE : S → Except ε S) (write : String → S → Except ε Unit)
    (mdNew : MDParams S → Except ε D) (mdGo : D → Int → Except ε Unit)
    (pf : String → Option Rat) (pm : String → Option Int) (a : RelaxArgs) (b : MdArgs)
    (argv : List String) :
    (∀ c, (relax_structure load relaxE write a).2 = .ok c → c = 0)
    ∧ (∀ c, (run_md load mdNew mdGo b).2 = .ok c → c = 0)
    ∧ main load relaxE write mdNew mdGo pf pm [] = ([.printHelp], .helpExit (-1))
    ∧ (∀ c, (main load relaxE write mdNew mdGo pf pm argv).2 = .returned c → c = 0) := by
  have hrel : ∀ (a1 : RelaxArgs) (c : Int),
      (relax_structure load relaxE write a1).2 = .ok c → c = 0 := by
    intro a1 c hc
    rw [relax_structure_eq_loop] at hc
    exact wrapExit_ok _ c hc
  have hmd : ∀ (b1 : MdArgs) (c : Int), (run_md load mdNew mdGo b1).2 = .ok c → c = 0 := by
    intro b1 c hc
    rw [run_md_eq_loop] at hc
    exact wrapExit_ok _ c hc
  refine ⟨hrel a, hmd b, rfl, ?_⟩
  intro c hc
  unfold main at hc
  cases htp : topParse pf pm argv with
  | noCommand =>
    rw [htp] at hc
    exact MainResult.noConfusion hc
  | parseErr e =>
    rw [htp] at hc
    exact MainResult.noConfusion hc
  | relaxCmd a1 =>
    rw [htp] at hc
    dsimp only at hc
    cases hr : relax_structure load relaxE write a1 with
    | mk tr r =>
      rw [hr] at hc
      cases r with
      | ok c1 =>
        cases hc
        exact hrel a1 c (by rw [hr])
      | error e => exact MainResult.noConfusion hc
  | mdCmd b1 =>
    rw [htp] at hc
    dsimp only at hc
    cases hr : run_md load mdNew mdGo b1 with
    | mk tr r =>
      rw [hr] at hc
      cases r with
      | ok c1 =>
        cases hc
        exact hmd b1 c (by rw [hr])
      | error e => exact MainResult.noConfusion hc

theorem dispatcher_exit_codes_witness :
    main loadT relaxT writeT mdNewT mdGoT pfT pmT [] = ([CliEvent.printHelp], .helpExit (-1))
    ∧ (0 : Int) = 0 := by
  have h := dispatcher_exit_codes loadT relaxT writeT mdNewT mdGoT pfT pmT
    ⟨["a.cif"], false, none, none⟩
    ⟨["a.cif"], false, 300, "nvt", 2, "md.traj", "md.log", 100, 10⟩
    ["relax", "-i", "a.cif"]
  exact ⟨h.2.2.1, h.2.2.2 0 rfl⟩

/-- C5: a `relax` invocation supplying both the suffix option and the outfile
option is rejected by the argument parser: such token lists never produce a
parsed namespace, and `main` on them performs no handler action (its event
trace is empty) and exits through the usage-error path with status 2. -/
theorem mutually_exclusive_rejected {S D ε : Type} (load : String → Except ε S)
    (relaxE : S → Except ε S) (write : String → S → Except ε Unit)
    (mdNew : MDParams S → Except ε D) (mdGo : D → Int → Except ε Unit)
    (pf : String → Option Rat) (pm : String → Option Int) (tokens : List String)
    (hS : "-s" ∈ tokens ∨ "--suffix" ∈ tokens)
    (hO : "-o" ∈ tokens ∨ "--outfile" ∈ tokens) :
    (∀ a, relaxParse tokens ≠ .ok a)
      ∧ (main load relaxE write mdNew mdGo pf pm ("relax" :: tokens)).1 = []
      ∧ ∃ e, (main load relaxE write mdNew mdGo pf pm ("relax" :: tokens)).2
          = .usageError 2 e := by
  refine ⟨relaxParse_mx_reject tokens hS hO, ?_⟩
  cases hp : relaxParse tokens with
  | ok a => exact absurd hp (relaxParse_mx_reject tokens hS hO a)
  | error e =>
    rw [main_relax_reject load relaxE write mdNew mdGo pf pm tokens e hp]
    exact ⟨rfl, e, rfl⟩

theorem mutually_exclusive_rejected_witness :
    (main loadT relaxT writeT mdNewT mdGoT pfT pmT
        ["relax", "-i", "a.cif", "-s", "_r", "-o", "out.cif"]).1 = []
      ∧ (main loadT relaxT writeT mdNewT mdGoT pfT pmT
          ["relax", "-i", "a.cif", "-s", "_r", "-o", "out.cif"]).2
        = .usageError 2 (.notAllowedWith "-o/--outfile" "-s/--suffix") := by
  have h := mutually_exclusive_rejected loadT relaxT writeT mdNewT mdGoT pfT pmT
    ["-i", "a.cif", "-s", "_r", "-o", "out.cif"] (by decide) (by decide)
  exact ⟨h.2.1, rfl⟩

/-- C6: a `relax` invocation without the required `-i` flag, and an `md`
invocation missing any of its required `-i`, `-t`, `-e`, `-dt`, `-n` flags,
are rejected by the parser: `main` on them performs no handler action (empty
event trace) and exits through the usage-error path with status 2; a parsed
namespace reaches a handler only when every required flag occurred in the
token list. -/
theorem required_flags_enforced {S D ε : Type} (load : String → Except ε S)
    (relaxE : S → Except ε S) (write : String → S → Except ε Unit)
    (mdNew : MDParams S → Except ε D) (mdGo : D → Int → Except ε Unit)
    (pf : String → Option Rat) (pm : String → Option Int) (tokens : List String) :
    (∀ a, relaxParse tokens = .ok a → ("-i" ∈ tokens ∨ "--infile" ∈ tokens))
    ∧ (∀ b, mdParse pf pm tokens = .ok b →
        ("-i" ∈ tokens ∨ "--infile" ∈ tokens) ∧ ("-t" ∈ tokens ∨ "--temp" ∈ tokens)
          ∧ ("-e" ∈ tokens ∨ "--ensemble" ∈ tokens)
          ∧ ("-dt" ∈ tokens ∨ "--timestep" ∈ tokens)
          ∧ ("-n" ∈ tokens ∨ "--nsteps" ∈ tokens))
    ∧ (("-i" ∉ tokens ∧ "--infile" ∉ tokens) →
        (main load relaxE write mdNew mdGo pf pm ("relax" :: tokens)).1 = []
          ∧ ∃ e, (main load relaxE write mdNew mdGo pf pm ("relax" :: tokens)).2
              = .usageError 2 e)
    ∧ ((("-i" ∉ tokens ∧ "--infile" ∉ tokens) ∨ ("-t" ∉ tokens ∧ "--temp" ∉ tokens)
        ∨ ("-e" ∉ tokens ∧ "--ensemble" ∉ tokens)
        ∨ ("-dt" ∉ tokens ∧ "--timestep" ∉ tokens)
        ∨ ("-n" ∉ tokens ∧ "--nsteps" ∉ tokens)) →
        (main load relaxE write mdNew mdGo pf pm ("md" :: tokens)).1 = []
          ∧ ∃ e, (main load relaxE write mdNew mdGo pf pm ("md" :: tokens)).2
              = .usageError 2 e) := by
  refine ⟨relaxParse_ok_infile tokens,
    fun b hok => mdParse_ok_required pf pm tokens b hok, ?_, ?_⟩
  · rintro ⟨h1, h2⟩
    cases hp : relaxParse tokens with
    | ok a =>
      rcases relaxParse_ok_infile tokens a hp with h | h
      · exact absurd h h1
      · exact absurd h h2
    | error e =>
      rw [main_relax_reject load relaxE write mdNew mdGo pf pm tokens e hp]
      exact ⟨rfl, e, rfl⟩
  · intro hmiss
    cases hp : mdParse pf pm tokens with
    | ok b =>
      have hreq := mdParse_ok_required pf pm tokens b hp
      rcases hmiss with ⟨h1, h2⟩ | ⟨h1, h2⟩ | ⟨h1, h2⟩ | ⟨h1, h2⟩ | ⟨h1, h2⟩
      · rcases hreq.1 with h | h
        · exact absurd h h1
        · exact absurd h h2
      · rcases hreq.2.1 with h | h
        · exact absurd h h1
        · exact absurd h h2
      · rcases hreq.2.2.1 with h | h
        · exact absurd h h1
        · exact absurd h h2
      · rcases hreq.2.2.2.1 with h | h
        · exact absurd h h1
        · exact absurd h h2
      · rcases hreq.2.2.2.2 with h | h
        · exact absurd h h1
        · exact absurd h h2
    | error e =>
      rw [main_md_reject load relaxE write mdNew mdGo pf pm tokens e hp]
      exact ⟨rfl, e, rfl⟩

theorem required_flags_enforced_witness :
    (main loadT relaxT writeT mdNewT mdGoT pfT pmT ["relax", "-v"]).1 = []
    ∧ (main loadT relaxT writeT mdNewT mdGoT pfT pmT ["md", "-i", "a.cif"]).1 = [] := by
  have h := required_flags_enforced loadT relaxT writeT mdNewT mdGoT pfT pmT ["-v"]
  have h2 := required_flags_enforced loadT relaxT writeT mdNewT mdGoT pfT pmT ["-i", "a.cif"]
  exact ⟨(h.2.2.1 ⟨by decide, by decide⟩).1,
    (h2.2.2.2 (Or.inr (Or.inl ⟨by decide, by decide⟩))).1⟩

end M3g
